import Mathlib

/-!
Verification model of the pinit apply engine and merge strategies
(crates/pinit-core/src/lib.rs and crates/pinit-core/src/merge.rs).

File contents are modelled as Lean `String`s (the engine itself only
compares byte buffers for equality, so it is stated generically over a
content type with decidable equality).  Text-level merge strategies are
implemented over `List Char` internally so that every definition reduces
in the kernel.  Rust's `str::lines`, `str::trim` (restricted to ASCII
whitespace), `split_once` and identifier checks are reproduced exactly.
-/

namespace Pinit

/-- Whitespace predicate used by trimming; matches Rust `char::is_whitespace`
on the ASCII range (the only characters exercised by env-style files). -/
def isWsChar (c : Char) : Bool :=
  c = ' ' || c = '\t' || c = '\n' || c = '\r' || c = '\x0b' || c = '\x0c'

/-- Drop leading whitespace characters (Rust `str::trim_start`). -/
def trimLeftChars (l : List Char) : List Char :=
  l.dropWhile isWsChar

/-- Drop trailing whitespace characters (Rust `str::trim_end`). -/
def trimRightChars (l : List Char) : List Char :=
  (l.reverse.dropWhile isWsChar).reverse

/-- Trim both ends (Rust `str::trim`). -/
def trimChars (l : List Char) : List Char :=
  trimRightChars (trimLeftChars l)

/-- Split a character list at newline characters; the result always has one
more chunk than there are newlines. -/
def splitNl : List Char → List (List Char)
  | [] => [[]]
  | c :: rest =>
    if c = '\n' then [] :: splitNl rest
    else
      match splitNl rest with
      | [] => [[c]]
      | l :: ls => (c :: l) :: ls

/-- Remove one trailing carriage return, as Rust `str::lines` does per line. -/
def stripCr (l : List Char) : List Char :=
  if l.getLast? = some '\r' then l.dropLast else l

/-- Model of Rust `str::lines`: split on `\n`, drop a final empty chunk
produced by a trailing newline, strip one `\r` from each line end. -/
def rustLines (s : String) : List String :=
  match s.data with
  | [] => []
  | cs =>
    let chunks := splitNl cs
    let chunks := if cs.getLast? = some '\n' then chunks.dropLast else chunks
    chunks.map (fun l => String.mk (stripCr l))

/-- Split at the first occurrence of `sep` (Rust `str::split_once`). -/
def splitOnceChar (sep : Char) : List Char → Option (List Char × List Char)
  | [] => none
  | c :: rest =>
    if c = sep then some ([], rest)
    else
      match splitOnceChar sep rest with
      | none => none
      | some (a, b) => some (c :: a, b)

/-- Model of `is_env_ident` in merge.rs: first char is `_` or ASCII letter,
the rest are `_` or ASCII alphanumeric. -/
def is_env_ident (s : List Char) : Bool :=
  match s with
  | [] => false
  | c :: cs => (c = '_' || c.isAlpha) && cs.all (fun d => d = '_' || d.isAlphanum)

/-- Model of `env_key` in merge.rs: classify one line of an env-style file,
returning the assignment key, or `none` for blank, comment or malformed
lines. -/
def env_key (line : String) : Option String :=
  let t := trimChars line.data
  if t = [] then none
  else if t.head? = some '#' then none
  else
    let s := if List.isPrefixOf "export ".data t then trimLeftChars (t.drop 7) else t
    match splitOnceChar '=' s with
    | none => none
    | some (k, _) =>
      let k := trimChars k
      if k = [] then none
      else if is_env_ident k then some (String.mk k) else none

/-- Collect the destination keys for `merge_env`; mirrors the loop
`let key = env_key(line)?;` — any unclassifiable line aborts with `none`. -/
def envDestKeys : List String → Option (List String)
  | [] => some []
  | l :: ls =>
    match env_key l with
    | none => none
    | some k =>
      match envDestKeys ls with
      | none => none
      | some ks => some (k :: ks)

/-- Append a trailing newline if the text is nonempty and lacks one;
mirrors the `if !out.ends_with('\n') && !out.is_empty()` pattern. -/
def ensureNl (s : String) : String :=
  if s.data ≠ [] ∧ s.data.getLast? ≠ some '\n' then String.mk (s.data ++ ['\n']) else s

/-- Concatenate lines, each followed by a newline. -/
def joinLines (ls : List String) : String :=
  String.mk (ls.foldr (fun l acc => l.data ++ '\n' :: acc) [])

/-- Model of `merge_env` in merge.rs: keys present in the destination win;
template lines whose key is missing are appended after one separating blank
line.  Returns `none` when any destination line fails to classify. -/
def merge_env (dest src : String) : Option String :=
  match envDestKeys (rustLines dest) with
  | none => none
  | some haveKeys =>
    let missing := (rustLines src).filter (fun l =>
      match env_key l with
      | none => false
      | some k => !(haveKeys.contains k))
    if missing = [] then some dest
    else some (String.mk ((ensureNl dest).data ++ '\n' :: (joinLines missing).data))

/-- Model of `envrc_var` in merge.rs: exported/assigned variable name of one
`.envrc` line, if any. -/
def envrc_var (line : String) : Option String :=
  let s := trimLeftChars line.data
  if s.head? = some '#' || s = [] then none
  else
    let s := if List.isPrefixOf "export".data s then trimLeftChars (s.drop 6) else s
    match splitOnceChar '=' s with
    | none => none
    | some (v, _) =>
      let v := trimChars v
      if is_env_ident v then some (String.mk v) else none

/-- Model of `merge_envrc` in merge.rs: append template lines not already
present by full text or by assigned variable name, after one blank line. -/
def merge_envrc (dest src : String) : Option String :=
  let destLines := rustLines dest
  let haveVars := destLines.filterMap envrc_var
  let toAdd := (rustLines src).filter (fun l =>
    !(destLines.contains l) &&
      (match envrc_var l with
       | some v => !(haveVars.contains v)
       | none => true))
  if toAdd = [] then some dest
  else some (String.mk ((ensureNl dest).data ++ '\n' :: (joinLines toAdd).data))

/-- Model of `merge_lines` in merge.rs: append template lines whose exact
text is absent from the destination (no blank separator line). -/
def merge_lines (dest src : String) : Option String :=
  let haveL := rustLines dest
  let missing := (rustLines src).filter (fun l => !(haveL.contains l))
  if missing = [] then some dest
  else some (String.mk ((ensureNl dest).data ++ (joinLines missing).data))

/-- Last path component (Rust `Path::file_name`), empty for the empty path. -/
def fileNameOf (rel : List String) : String :=
  (rel.getLast?).getD ""

/-- Model of the filename-dispatch fragment of `merge_file` in merge.rs
exercised by the engine-level claims: `.envrc` and `.env`/`.env.*` names
dispatch to the key-value mergers, everything else falls back to the
generic line merge.  (The structured TOML/YAML and syntax-tree strategies
of the source dispatch on extensions and are modelled separately at the
document level as `merge_toml_table` and `merge_yaml_value`.) -/
def merge_file (rel : List String) (dest src : String) : Option String :=
  let fn := fileNameOf rel
  if fn = ".envrc" then merge_envrc dest src
  else if fn = ".env" || List.isPrefixOf ".env.".data fn.data then merge_env dest src
  else merge_lines dest src

/-! ### Structured-document merge: TOML (`merge_toml_table` in merge.rs)

`toml_edit::Item` is modelled with opaque identifiers for values and
arrays-of-tables (the merge never inspects them) and ordered key/item
lists for tables (`toml_edit` preserves insertion order and appends new
keys at the end). -/

mutual
inductive TomlItem : Type where
  | value : Nat → TomlItem
  | table : TomlTable → TomlItem
  | arrayOfTables : Nat → TomlItem
deriving DecidableEq
inductive TomlTable : Type where
  | nil : TomlTable
  | cons : String → TomlItem → TomlTable → TomlTable
deriving DecidableEq
end

/-- First binding of a key in a table (`toml_edit::Table::get`). -/
def tfind? : TomlTable → String → Option TomlItem
  | .nil, _ => none
  | .cons k v rest, k' => if k = k' then some v else tfind? rest k'

/-- Key membership in a table (`toml_edit::Table::contains_key`). -/
def tcontains (t : TomlTable) (k : String) : Bool :=
  (tfind? t k).isSome

/-- Replace the first binding of `k` (in-place mutation via `get_mut`). -/
def tset : TomlTable → String → TomlItem → TomlTable
  | .nil, _, _ => .nil
  | .cons k v rest, k', v' =>
    if k = k' then .cons k v' rest else .cons k v (tset rest k' v')

/-- Append a new binding at the end (`toml_edit::Table::insert` of a fresh
key preserves insertion order). -/
def tappend : TomlTable → String → TomlItem → TomlTable
  | .nil, k, v => .cons k v .nil
  | .cons k0 v0 rest, k, v => .cons k0 v0 (tappend rest k v)

/-- Key list of a table, in order. -/
def tkeys : TomlTable → List String
  | .nil => []
  | .cons k _ rest => k :: tkeys rest

mutual
/-- Model of `merge_toml_table` in merge.rs: for each template entry, insert
it if the destination lacks the key; recurse when both sides hold tables;
leave every other collision (value/value, array/array, mixed) untouched. -/
def merge_toml_table : TomlTable → TomlTable → TomlTable
  | dest, .nil => dest
  | dest, .cons k sv rest => merge_toml_table (mergeTomlKey dest k sv) rest
/-- Merge a single template binding into the destination table (one loop
iteration of `merge_toml_table`). -/
def mergeTomlKey : TomlTable → String → TomlItem → TomlTable
  | dest, k, sv =>
    match tfind? dest k with
    | none => tappend dest k sv
    | some (TomlItem.table dt) =>
      match sv with
      | .table st => tset dest k (.table (merge_toml_table dt st))
      | _ => dest
    | some _ => dest
end

/-- Lookup along a path of keys, descending through tables. -/
def tomlLookupPath : TomlItem → List String → Option TomlItem
  | it, [] => some it
  | .table t, k :: p =>
    match tfind? t k with
    | some it => tomlLookupPath it p
    | none => none
  | _, _ :: _ => none

/-- Leaf items: scalars/values and arrays-of-tables (everything the merge
never rewrites). -/
def tomlIsLeaf : TomlItem → Bool
  | .table _ => false
  | _ => true

mutual
/-- Well-formedness of parsed TOML: no duplicate keys in any table. -/
def tomlItemWf : TomlItem → Bool
  | .table t => tomlTableWf t
  | _ => true
def tomlTableWf : TomlTable → Bool
  | .nil => true
  | .cons k v rest => !(tcontains rest k) && tomlItemWf v && tomlTableWf rest
end

/-! ### Structured-document merge: YAML (`merge_yaml_value` in merge.rs)

`rust_yaml::Value` keys are arbitrary values; they are modelled as opaque
identifiers.  Non-mapping values are opaque scalars (the merge only acts
on mapping/mapping pairs). -/

mutual
inductive YamlValue : Type where
  | scalar : Nat → YamlValue
  | mapping : YamlMap → YamlValue
deriving DecidableEq
inductive YamlMap : Type where
  | nil : YamlMap
  | cons : Nat → YamlValue → YamlMap → YamlMap
deriving DecidableEq
end

/-- First binding of a key in a mapping (`Mapping::get`). -/
def yfind? : YamlMap → Nat → Option YamlValue
  | .nil, _ => none
  | .cons k v rest, k' => if k = k' then some v else yfind? rest k'

/-- Key membership (`Mapping::contains_key`). -/
def ycontains (m : YamlMap) (k : Nat) : Bool :=
  (yfind? m k).isSome

/-- Replace the first binding of `k` (mutation through `get_mut`). -/
def yset : YamlMap → Nat → YamlValue → YamlMap
  | .nil, _, _ => .nil
  | .cons k v rest, k', v' =>
    if k = k' then .cons k v' rest else .cons k v (yset rest k' v')

/-- Append a new binding at the end (insertion of a fresh key). -/
def yappend : YamlMap → Nat → YamlValue → YamlMap
  | .nil, k, v => .cons k v .nil
  | .cons k0 v0 rest, k, v => .cons k0 v0 (yappend rest k v)

/-- Key list of a mapping, in order. -/
def ykeys : YamlMap → List Nat
  | .nil => []
  | .cons k _ rest => k :: ykeys rest

mutual
/-- Model of `merge_yaml_value` in merge.rs: on mapping/mapping pairs,
insert template keys missing from the destination and recurse on shared
keys; every other shape leaves the destination untouched. -/
def merge_yaml_value : YamlValue → YamlValue → YamlValue
  | .mapping d, .mapping s => .mapping (merge_yaml_map d s)
  | d, _ => d
/-- Iterate the template mapping's entries into the destination mapping. -/
def merge_yaml_map : YamlMap → YamlMap → YamlMap
  | d, .nil => d
  | d, .cons k v rest => merge_yaml_map (mergeYamlKey d k v) rest
/-- Merge a single template binding (one loop iteration over `src_map`). -/
def mergeYamlKey : YamlMap → Nat → YamlValue → YamlMap
  | d, k, v =>
    match yfind? d k with
    | none => yappend d k v
    | some dv => yset d k (merge_yaml_value dv v)
end

/-- Lookup along a path of keys, descending through mappings. -/
def yamlLookupPath : YamlValue → List Nat → Option YamlValue
  | v, [] => some v
  | .mapping m, k :: p =>
    match yfind? m k with
    | some v => yamlLookupPath v p
    | none => none
  | _, _ :: _ => none

/-- Non-mapping values, which the merge never rewrites. -/
def yamlIsScalar : YamlValue → Bool
  | .scalar _ => true
  | .mapping _ => false

mutual
/-- Well-formedness of parsed YAML: no duplicate keys in any mapping. -/
def yamlValueWf : YamlValue → Bool
  | .mapping m => yamlMapWf m
  | _ => true
def yamlMapWf : YamlMap → Bool
  | .nil => true
  | .cons k v rest => !(ycontains rest k) && yamlValueWf v && yamlMapWf rest
end

/-! ### Apply engine (crates/pinit-core/src/lib.rs)

Relative paths are lists of components.  The destination directory is an
association list from relative paths to nodes (regular files carry their
content and POSIX permission bits; other nodes are directories).  The
engine is generic over the content type `β` (byte buffers in the source)
and the decider state `σ` (the decider is a caller-supplied mutable
strategy object).  Filesystem writes are both applied to the destination
map and appended to a `writes` log; decider invocations are logged in
`decisions`, so that frame claims (“no write occurs”, “the decider is
never called”) are directly statable. -/

variable {β σ : Type}

/-- Action to take when the destination file already exists. -/
inductive ExistingFileAction : Type where
  | overwrite : ExistingFileAction
  | merge : ExistingFileAction
  | skip : ExistingFileAction
deriving DecidableEq

/-- Report of work performed (`ApplyReport` in lib.rs). -/
structure ApplyReport where
  created_files : Nat
  updated_files : Nat
  skipped_files : Nat
  ignored_paths : Nat
deriving DecidableEq

/-- Zero-initialized report (`ApplyReport::default`). -/
def ApplyReport.zero : ApplyReport := ⟨0, 0, 0, 0⟩

/-- Context handed to the decider (`ExistingFileDecisionContext`; the
absolute `dest_path` is `dest_root.join(rel_path)` and therefore
determined by `rel_path`, so it is not repeated here). -/
structure DecCtx (β : Type) where
  rel_path : List String
  src_bytes : β
  dest_bytes : β
  merge_bytes : Option β
deriving DecidableEq

/-- Errors of the apply engine (`ApplyError` in lib.rs; `GitIgnoreFailed`
is unreachable in this model because the ignore oracle is modelled as a
total function of the destination contents and query — its process
failure mode is not exercised by any claim). -/
inductive ApplyErr : Type where
  | templateDirNotFound : List String → ApplyErr
  | templateDirNotDir : List String → ApplyErr
  | destDirNotDir : List String → ApplyErr
  | symlinkNotSupported : List String → ApplyErr
  | ioError : List String → ApplyErr
deriving DecidableEq

/-- Node of the destination filesystem at some relative path. -/
inductive DestNode (β : Type) where
  | file : β → Nat → DestNode β
  | dirNode : DestNode β
deriving DecidableEq

/-- Destination filesystem: association list keyed by relative path. -/
abbrev Dest (β : Type) := List (List String × DestNode β)

/-- Lookup of a relative path in the destination. -/
def destLookup (d : Dest β) (p : List String) : Option (DestNode β) :=
  match d with
  | [] => none
  | (q, n) :: rest => if q = p then some n else destLookup rest p

/-- Write a node at a relative path: replace the first binding or append. -/
def destInsert (d : Dest β) (p : List String) (n : DestNode β) : Dest β :=
  match d with
  | [] => [(p, n)]
  | (q, m) :: rest => if q = p then (q, n) :: rest else (q, m) :: destInsert rest p n

mutual
/-- Entries of a template directory tree (`fs::read_dir` results).  Files
carry content and permission bits; symlinks are opaque (never followed). -/
inductive TEntry (β : Type) : Type where
  | file : β → Nat → TEntry β
  | dir : TList β → TEntry β
  | symlink : TEntry β
deriving DecidableEq
inductive TList (β : Type) : Type where
  | nil : TList β
  | cons : String → TEntry β → TList β → TList β
deriving DecidableEq
end

/-- Entry names of one directory level. -/
def TList.names : TList β → List String
  | .nil => []
  | .cons n _ rest => n :: rest.names

mutual
/-- Well-formed template trees: names are unique within each directory,
as `fs::read_dir` guarantees for real directories. -/
def TEntry.wf : TEntry β → Bool
  | .dir l => l.wf
  | _ => true
def TList.wf : TList β → Bool
  | .nil => true
  | .cons n e rest => !(rest.names.contains n) && e.wf && rest.wf
end

/-- Bytewise name comparison used for sorting directory entries
(`OsString` ordering; code points coincide with UTF-8 byte order). -/
def nameLe : List Char → List Char → Bool
  | [], _ => true
  | _ :: _, [] => false
  | a :: as, b :: bs =>
    if a = b then nameLe as bs else decide (a.toNat < b.toNat)

/-- Stable insertion by name, used to model `entries.sort_by_key(file_name)`. -/
def insertEntry (n : String) (e : TEntry β) : TList β → TList β
  | .nil => .cons n e .nil
  | .cons m f rest =>
    if nameLe n.data m.data then .cons n e (.cons m f rest)
    else .cons m f (insertEntry n e rest)

mutual
/-- Recursively sort every directory level by entry name.  The source
sorts each level on entering it (`entries.sort_by_key(|e| e.file_name())`);
hoisting all the sorts up front is observationally identical because the
traversal only ever reorders a level before descending into it. -/
def sortTEntry : TEntry β → TEntry β
  | .file c m => .file c m
  | .symlink => .symlink
  | .dir l => .dir (sortTList l)
/-- Sort one directory level (stable, like Rust `sort_by_key`) and recurse. -/
def sortTList : TList β → TList β
  | .nil => .nil
  | .cons n e rest => insertEntry n (sortTEntry e) (sortTList rest)
end

/-- True on directory entries (`Metadata::is_dir`). -/
def TEntry.isDir : TEntry β → Bool
  | .dir _ => true
  | _ => false

/-- True on symlink entries (`FileType::is_symlink`). -/
def TEntry.isSymlink : TEntry β → Bool
  | .symlink => true
  | _ => false

/-- Model of `should_always_ignore` in lib.rs: filename `.DS_Store`, or
first component `.git`. -/
def should_always_ignore (rel : List String) : Bool :=
  rel.getLast? = some ".DS_Store" || rel.head? = some ".git"

/-- Model of `format_git_rel` in lib.rs: forward-slash join, trailing slash
for directories. -/
def format_git_rel (rel : List String) (isDir : Bool) : String :=
  let s := String.intercalate "/" rel
  if isDir ∧ s.data.getLast? ≠ some '/' then s ++ "/" else s

/-- Engine collaborators: the merge strategy registry, the stateful
decision protocol, and the ignore oracle that `GitIgnore::detect` yields
for an existing destination (`none` when git is unavailable or the
destination is not inside a work tree).  The oracle is live: the source's
`git check-ignore` batches consult the destination's current filesystem
contents once per directory level, so the oracle receives the current
destination map alongside the formatted query.  Its failure mode
(`GitIgnoreFailed`) is not exercised by any claim. -/
structure EngineCfg (β σ : Type) where
  mergeFn : List String → β → β → Option β
  decider : σ → DecCtx β → σ × ExistingFileAction
  oracle : Option (Dest β → String → Bool)

/-- Whether a detected oracle reports this query as ignored against the
given destination contents; no oracle means nothing is ignored. -/
def oracleIgnores : Option (Dest β → String → Bool) → Dest β → String → Bool
  | some g, d, q => g d q
  | none, _, _ => false

/-- Model of the destination-validation prelude shared by both entry
points (lib.rs 187–201 and 250–264): when the destination directory
already exists, `GitIgnore::detect` yields the configured oracle; when it
is missing, the non-dry run first runs `fs::create_dir_all(dest_dir)` —
after which `detect` sees an existing directory and again yields the
configured oracle (for example when the new directory is nested inside a
git work tree) — while the dry run skips the creation, so `detect` finds
no destination and yields no oracle. -/
def detectedOracle (cfg : EngineCfg β σ) (dryRun destExists : Bool) :
    Option (Dest β → String → Bool) :=
  if destExists then cfg.oracle
  else if dryRun then none
  else cfg.oracle

/-- Mutable state threaded through one apply call: the destination map,
the decider state, the accumulated report, and the write/decision logs. -/
structure EState (β σ : Type) where
  dest : Dest β
  decState : σ
  report : ApplyReport
  writes : List (List String × β)
  decisions : List (DecCtx β)

/-- Resolve a decision to output bytes, per the `match action` in
`apply_dir_recursive`: `Overwrite` takes the template bytes, `Merge` the
precomputed merge bytes when available, and `Skip` (or an unavailable
merge) resolves to no write. -/
def resolveAction (a : ExistingFileAction) (src : β) (mergeb : Option β) : Option β :=
  match a with
  | .overwrite => some src
  | .merge => mergeb
  | .skip => none

/-- Per-file logic of `apply_dir_recursive` (lib.rs lines 450–537): if the
destination path exists, read it (a directory there makes `fs::read` fail
with an I/O error), take the identical-bytes fast path, otherwise compute
the merge, ask the decider, resolve the action, detect no-ops, and write
preserving the existing permission bits; if the path does not exist,
create it via `fs::copy`, which copies the template's permission bits. -/
def processFile [DecidableEq β] (cfg : EngineCfg β σ) (dryRun : Bool)
    (rel : List String) (srcContent : β) (srcMode : Nat) (s : EState β σ) :
    EState β σ × Option ApplyErr :=
  match destLookup s.dest rel with
  | some (DestNode.file destBytes destMode) =>
    if srcContent = destBytes then
      ({ s with report := { s.report with skipped_files := s.report.skipped_files + 1 } }, none)
    else
      let mergeb := cfg.mergeFn rel destBytes srcContent
      let ctx : DecCtx β := ⟨rel, srcContent, destBytes, mergeb⟩
      let (ds, act) := cfg.decider s.decState ctx
      let s := { s with decState := ds, decisions := s.decisions ++ [ctx] }
      match resolveAction act srcContent mergeb with
      | none =>
        ({ s with report := { s.report with skipped_files := s.report.skipped_files + 1 } }, none)
      | some out =>
        if out = destBytes then
          ({ s with report := { s.report with skipped_files := s.report.skipped_files + 1 } }, none)
        else
          let s := { s with report := { s.report with updated_files := s.report.updated_files + 1 } }
          if dryRun then (s, none)
          else
            ({ s with
                dest := destInsert s.dest rel (DestNode.file out destMode),
                writes := s.writes ++ [(rel, out)] }, none)
  | some DestNode.dirNode => (s, some (ApplyErr.ioError rel))
  | none =>
    let s := { s with report := { s.report with created_files := s.report.created_files + 1 } }
    if dryRun then (s, none)
    else
      ({ s with
          dest := destInsert s.dest rel (DestNode.file srcContent srcMode),
          writes := s.writes ++ [(rel, srcContent)] }, none)

mutual
/-- Process a single non-ignored template entry at relative path `rel`,
with `g` the oracle detected before traversal (a parameter threaded
through the recursion, like the `git_ignore: &Option<GitIgnore>` argument
of the source's `apply_dir_recursive`).  Entering a directory starts one
`apply_dir_recursive` call of the source: its ignore batch is snapshotted
against the destination's current contents at that moment (this is the
body of `apply_dir_recursive` below, inlined here to keep the recursion
structural). -/
def applyEntry [DecidableEq β] (cfg : EngineCfg β σ)
    (g : Option (Dest β → String → Bool)) (dryRun : Bool)
    (rel : List String) : TEntry β → EState β σ → EState β σ × Option ApplyErr
  | .file c m, s => processFile cfg dryRun rel c m s
  | .dir l, s =>
    apply_dir_entries cfg g dryRun rel (fun q => oracleIgnores g s.dest q) l s
  | .symlink, s => (s, some (ApplyErr.symlinkNotSupported rel))
/-- Model of the entry loop of `apply_dir_recursive` over one (already
sorted) directory level, with `ign` the level's ignore batch — the
source runs one `git check-ignore --stdin` batch per level against the
destination's current contents before processing any entry of the level,
so writes performed while processing this level do not change this
level's answers, but they do change the batches of subsequently entered
directories.  Symlinks abort, always-ignored and batch-ignored paths are
counted, directories recurse (re-batching at entry), files are applied;
the first error stops the traversal, leaving the state reached so far. -/
def apply_dir_entries [DecidableEq β] (cfg : EngineCfg β σ)
    (g : Option (Dest β → String → Bool)) (dryRun : Bool)
    (relBase : List String) (ign : String → Bool) :
    TList β → EState β σ → EState β σ × Option ApplyErr
  | .nil, s => (s, none)
  | .cons name e rest, s =>
    let rel := relBase ++ [name]
    if e.isSymlink then (s, some (ApplyErr.symlinkNotSupported rel))
    else if should_always_ignore rel then
      apply_dir_entries cfg g dryRun relBase ign rest
        { s with report := { s.report with ignored_paths := s.report.ignored_paths + 1 } }
    else if ign (format_git_rel rel e.isDir) then
      apply_dir_entries cfg g dryRun relBase ign rest
        { s with report := { s.report with ignored_paths := s.report.ignored_paths + 1 } }
    else
      match applyEntry cfg g dryRun rel e s with
      | (s', none) => apply_dir_entries cfg g dryRun relBase ign rest s'
      | (s', some err) => (s', some err)
end

/-- Model of one `apply_dir_recursive` call in lib.rs: snapshot the
level's ignore batch against the destination's current contents, then
run the entry loop.  (The `.dir` case of `applyEntry` inlines this same
body.) -/
def apply_dir_recursive [DecidableEq β] (cfg : EngineCfg β σ)
    (g : Option (Dest β → String → Bool)) (dryRun : Bool)
    (relBase : List String) (l : TList β) (s : EState β σ) :
    EState β σ × Option ApplyErr :=
  apply_dir_entries cfg g dryRun relBase (fun q => oracleIgnores g s.dest q) l s

/-- Initial engine state for one apply call. -/
def initState (d : Dest β) (s0 : σ) : EState β σ :=
  ⟨d, s0, ApplyReport.zero, [], []⟩

/-- Model of `apply_template_dir` in lib.rs: validate the template root
(symlink and non-directory roots abort before any traversal), create a
missing destination directory unless dry-running and run
`GitIgnore::detect` (see `detectedOracle`; `destExists` says whether the
destination directory existed beforehand), then walk the sorted tree. -/
def apply_template_dir [DecidableEq β] (cfg : EngineCfg β σ) (dryRun : Bool)
    (root : TEntry β) (destExists : Bool) (d : Dest β) (s0 : σ) :
    EState β σ × Option ApplyErr :=
  match root with
  | .symlink => (initState d s0, some (ApplyErr.symlinkNotSupported []))
  | .file _ _ => (initState d s0, some (ApplyErr.templateDirNotDir []))
  | .dir l =>
    apply_dir_recursive cfg (detectedOracle cfg dryRun destExists) dryRun []
      (sortTList l) (initState d s0)

/-- Result of `apply_generated_file`, with explicit event logs: the paths
read, the paths written, the ignore-oracle queries issued, and the decider
invocations. -/
structure GenResult (β σ : Type) where
  report : ApplyReport
  dest : Dest β
  decState : σ
  reads : List (List String)
  writes : List (List String × β)
  oracleQueries : List String
  decisions : List (DecCtx β)
  error : Option ApplyErr
deriving DecidableEq

/-- Default permission bits of a file freshly created by `fs::write`
(0o644 under a conventional umask). -/
def defaultFileMode : Nat := 0o644

/-- Model of `apply_generated_file` in lib.rs: an empty relative path
returns an all-zero report immediately (before any filesystem access,
oracle detection, or decision); always-ignored paths count as ignored
next; then a missing destination directory is created unless dry-running
and the oracle is detected (`detectedOracle`) and queried once against
the destination's current contents; identical existing content is skipped
without a decision; otherwise the decider chooses, with `Merge` degraded
to `Skip` (no merge driver runs for generated bytes); overwrites keep the
existing permission bits, creations get the default mode. -/
def apply_generated_file [DecidableEq β] (cfg : EngineCfg β σ) (dryRun : Bool)
    (destExists : Bool) (rel : List String) (contents : β) (d : Dest β) (s0 : σ) :
    GenResult β σ :=
  if rel = [] then ⟨ApplyReport.zero, d, s0, [], [], [], [], none⟩
  else if should_always_ignore rel then
    ⟨{ ApplyReport.zero with ignored_paths := 1 }, d, s0, [], [], [], [], none⟩
  else
    let g := detectedOracle cfg dryRun destExists
    let q := format_git_rel rel false
    let oq : List String := match g with | some _ => [q] | none => []
    if oracleIgnores g d q then
      ⟨{ ApplyReport.zero with ignored_paths := 1 }, d, s0, [], [], oq, [], none⟩
    else
      match destLookup d rel with
      | some (DestNode.file destBytes destMode) =>
        if destBytes = contents then
          ⟨{ ApplyReport.zero with skipped_files := 1 }, d, s0, [rel], [], oq, [], none⟩
        else
          let ctx : DecCtx β := ⟨rel, contents, destBytes, none⟩
          let (ds, act) := cfg.decider s0 ctx
          match act with
          | .skip =>
            ⟨{ ApplyReport.zero with skipped_files := 1 }, d, ds, [rel], [], oq, [ctx], none⟩
          | .merge =>
            ⟨{ ApplyReport.zero with skipped_files := 1 }, d, ds, [rel], [], oq, [ctx], none⟩
          | .overwrite =>
            if dryRun then
              ⟨{ ApplyReport.zero with updated_files := 1 }, d, ds, [rel], [], oq, [ctx], none⟩
            else
              ⟨{ ApplyReport.zero with updated_files := 1 },
                destInsert d rel (DestNode.file contents destMode), ds,
                [rel], [(rel, contents)], oq, [ctx], none⟩
      | some DestNode.dirNode =>
        ⟨ApplyReport.zero, d, s0, [rel], [], oq, [], some (ApplyErr.ioError rel)⟩
      | none =>
        if dryRun then
          ⟨{ ApplyReport.zero with created_files := 1 }, d, s0, [], [], oq, [], none⟩
        else
          ⟨{ ApplyReport.zero with created_files := 1 },
            destInsert d rel (DestNode.file contents defaultFileMode), s0,
            [], [(rel, contents)], oq, [], none⟩

/-! ### Concrete fixtures

Standard decider fixtures over string contents (the spec assumes
"always Skip" and "always <fixed action>" implementations exist), and
concrete engine runs used to settle the end-to-end claims. -/

/-- Decider that always chooses `Merge`, over string contents. -/
def alwaysMergeCfg : EngineCfg String Unit :=
  ⟨merge_file, fun _ _ => ((), .merge), none⟩

/-- Decider that always chooses `Overwrite`, over string contents. -/
def alwaysOverwriteCfg : EngineCfg String Unit :=
  ⟨merge_file, fun _ _ => ((), .overwrite), none⟩

/-- Apply a template `.env` of `"A=template\nB=template\n"` onto a
destination `.env` of `"A=dest\n"` with an always-merge decider. -/
def envConflictRun : EState String Unit × Option ApplyErr :=
  apply_template_dir alwaysMergeCfg false
    (.dir (.cons ".env" (.file "A=template\nB=template\n" 420) .nil))
    true [([".env"], DestNode.file "A=dest\n" 420)] ()

/-- Apply a template directory holding a regular file `a.txt` and a
symlink `b` (in sorted order the file comes first) onto an empty
destination. -/
def symlinkAfterFileRun : EState String Unit × Option ApplyErr :=
  apply_template_dir alwaysOverwriteCfg false
    (.dir (.cons "a.txt" (.file "x" 420) (.cons "b" .symlink .nil)))
    true [] ()

/-- Apply a template directory holding one executable file (mode 0o755)
onto an empty destination. -/
def modeCopyRun : EState String Unit × Option ApplyErr :=
  apply_template_dir alwaysOverwriteCfg false
    (.dir (.cons "tool.sh" (.file "echo hi\n" 0o755) .nil))
    true [] ()

/-- Overwrite decider with a live git-ignore oracle reflecting a
destination `.gitignore` of `"b.txt\n"`: the query `sub/b.txt` is
reported ignored exactly when the destination currently holds a
`.gitignore` file (as `git check-ignore` honors untracked ignore files —
see the repo test `honors_destination_gitignore`). -/
def liveOracleCfg : EngineCfg String Unit :=
  ⟨merge_file, fun _ _ => ((), .overwrite),
    some (fun d q => q = "sub/b.txt" && (destLookup d [".gitignore"]).isSome)⟩

/-- Template tree carrying its own `.gitignore` (sorted before `sub`)
and a subdirectory `sub` holding the file the ignore rule matches. -/
def gitignoreTree : TEntry String :=
  .dir (.cons ".gitignore" (.file "b.txt\n" 420)
    (.cons "sub" (.dir (.cons "b.txt" (.file "x" 420) .nil)) .nil))

/-- Non-dry run of `gitignoreTree` into an existing empty destination:
the root level writes `.gitignore`, so the `sub` level's ignore batch —
taken after that write — reports `sub/b.txt` ignored. -/
def liveOracleRunReal : EState String Unit × Option ApplyErr :=
  apply_template_dir liveOracleCfg false gitignoreTree true [] ()

/-- Dry run of `liveOracleRunReal`'s input: `.gitignore` is never
written, so the `sub` level's batch sees an empty destination and
`sub/b.txt` is not ignored. -/
def liveOracleRunDry : EState String Unit × Option ApplyErr :=
  apply_template_dir liveOracleCfg true gitignoreTree true [] ()

/-- Overwrite decider whose oracle (once detected) ignores `a.txt`
regardless of destination contents. -/
def missingDestCfg : EngineCfg String Unit :=
  ⟨merge_file, fun _ _ => ((), .overwrite), some (fun _ q => q = "a.txt")⟩

/-- Non-dry run into a *missing* destination directory: the run creates
the directory, `GitIgnore::detect` then finds it and the oracle is
active, so `a.txt` is ignored. -/
def missingDestRunReal : EState String Unit × Option ApplyErr :=
  apply_template_dir missingDestCfg false
    (.dir (.cons "a.txt" (.file "x" 420) .nil)) false [] ()

/-- Dry run of `missingDestRunReal`'s input: the destination is never
created, `GitIgnore::detect` finds nothing and no oracle runs, so
`a.txt` is created instead of ignored. -/
def missingDestRunDry : EState String Unit × Option ApplyErr :=
  apply_template_dir missingDestCfg true
    (.dir (.cons "a.txt" (.file "x" 420) .nil)) false [] ()

/-- Classification of one destination env line in the spec's terms:
blank, comment, or a valid key assignment. -/
def envLineClassifiable (l : String) : Bool :=
  trimChars l.data = [] || (trimChars l.data).head? = some '#' || (env_key l).isSome

/-- Preservation order between TOML items: every path readable in `a` is
still readable in `b`, and leaf items (values, arrays-of-tables) are
recovered unchanged. -/
def tomlPres (a b : TomlItem) : Prop :=
  ∀ p it, tomlLookupPath a p = some it →
    ∃ it', tomlLookupPath b p = some it' ∧ (tomlIsLeaf it = true → it' = it)

/-- Preservation order between YAML values, as for TOML items. -/
def yamlPres (a b : YamlValue) : Prop :=
  ∀ p it, yamlLookupPath a p = some it →
    ∃ it', yamlLookupPath b p = some it' ∧ (yamlIsScalar it = true → it' = it)

/-- One relative path lies at or below another: `p` extends `base`. -/
def pathUnder (base p : List String) : Prop :=
  ∃ rest, p = base ++ rest

/-! ### Helper lemmas -/

theorem destLookup_destInsert_self (d : Dest β) (p : List String) (n : DestNode β) :
    destLookup (destInsert d p n) p = some n := by
  induction d with
  | nil => simp [destInsert, destLookup]
  | cons hd rest ih =>
    obtain ⟨q, m⟩ := hd
    by_cases h : q = p
    · simp [destInsert, destLookup, h]
    · simp [destInsert, destLookup, h, ih]

theorem destLookup_destInsert_ne (d : Dest β) (p p' : List String) (n : DestNode β)
    (h : p' ≠ p) : destLookup (destInsert d p n) p' = destLookup d p' := by
  have h' : p ≠ p' := fun hh => h hh.symm
  induction d with
  | nil => simp [destInsert, destLookup, h']
  | cons hd rest ih =>
    obtain ⟨q, m⟩ := hd
    by_cases hq : q = p
    · subst hq
      simp [destInsert, destLookup, h']
    · simp [destInsert, destLookup, hq, ih]

/-! ### Claim theorems -/

/-- C1: for a conflicting file (destination exists with different bytes),
whenever the decider's chosen action resolves to output bytes — the
template bytes for `Overwrite`, the available merge bytes for `Merge` —
that are identical to the current destination content, `processFile`
counts the file as skipped and not as updated, performs no write, and
leaves the destination untouched, regardless of which action was chosen. -/
theorem noop_resolution_counts_skipped [DecidableEq β] (cfg : EngineCfg β σ)
    (dryRun : Bool) (rel : List String) (src : β) (srcMode : Nat) (s : EState β σ)
    (destBytes : β) (destMode : Nat)
    (hdest : destLookup s.dest rel = some (DestNode.file destBytes destMode))
    (hconflict : src ≠ destBytes)
    (hres : resolveAction
        (cfg.decider s.decState ⟨rel, src, destBytes, cfg.mergeFn rel destBytes src⟩).2
        src (cfg.mergeFn rel destBytes src) = some destBytes) :
    (processFile cfg dryRun rel src srcMode s).2 = none ∧
    (processFile cfg dryRun rel src srcMode s).1.report.skipped_files
      = s.report.skipped_files + 1 ∧
    (processFile cfg dryRun rel src srcMode s).1.report.updated_files
      = s.report.updated_files ∧
    (processFile cfg dryRun rel src srcMode s).1.writes = s.writes ∧
    (processFile cfg dryRun rel src srcMode s).1.dest = s.dest := by
  unfold processFile
  rw [hdest]
  rcases hdec : cfg.decider s.decState ⟨rel, src, destBytes, cfg.mergeFn rel destBytes src⟩
    with ⟨ds, act⟩
  rw [hdec] at hres
  simp only [if_neg hconflict, hdec, hres]
  simp

/-- Witness for C1 at a concrete input: content type `Nat`, a merge
function returning the destination bytes, and a decider answering
`Merge`. -/
theorem noop_resolution_counts_skipped_witness :
    ((processFile (σ := Unit) ⟨fun _ d _ => some d, fun _ _ => ((), .merge), none⟩
        false ["f"] 2 0 (initState [(["f"], DestNode.file 1 0)] ())).2 = none ∧
      (processFile (σ := Unit) ⟨fun _ d _ => some d, fun _ _ => ((), .merge), none⟩
        false ["f"] 2 0 (initState [(["f"], DestNode.file 1 0)] ())).1.report.skipped_files
        = (initState (σ := Unit) [(["f"], DestNode.file 1 0)] ()).report.skipped_files + 1 ∧
      (processFile (σ := Unit) ⟨fun _ d _ => some d, fun _ _ => ((), .merge), none⟩
        false ["f"] 2 0 (initState [(["f"], DestNode.file 1 0)] ())).1.report.updated_files
        = (initState (σ := Unit) [(["f"], DestNode.file 1 0)] ()).report.updated_files ∧
      (processFile (σ := Unit) ⟨fun _ d _ => some d, fun _ _ => ((), .merge), none⟩
        false ["f"] 2 0 (initState [(["f"], DestNode.file 1 0)] ())).1.writes
        = (initState (σ := Unit) [(["f"], DestNode.file 1 0)] ()).writes ∧
      (processFile (σ := Unit) ⟨fun _ d _ => some d, fun _ _ => ((), .merge), none⟩
        false ["f"] 2 0 (initState [(["f"], DestNode.file 1 0)] ())).1.dest
        = (initState (σ := Unit) [(["f"], DestNode.file 1 0)] ()).dest) :=
  noop_resolution_counts_skipped _ false ["f"] 2 0 _ 1 0 (by decide) (by decide) (by decide)

/-- C5: when the destination file's bytes are identical to the template
(or generated) bytes, both the directory engine's per-file step and
`apply_generated_file` count the file as skipped without ever invoking
the decider, writing nothing. -/
theorem identical_bytes_skip_without_decision :
    (∀ (β σ : Type) (_ : DecidableEq β) (cfg : EngineCfg β σ) (dryRun : Bool)
      (rel : List String) (db : β) (dm srcMode : Nat) (s : EState β σ),
      destLookup s.dest rel = some (DestNode.file db dm) →
      processFile cfg dryRun rel db srcMode s =
        ({ s with report :=
            { s.report with skipped_files := s.report.skipped_files + 1 } }, none)) ∧
    (∀ (β σ : Type) (_ : DecidableEq β) (cfg : EngineCfg β σ) (dryRun destExists : Bool)
      (rel : List String) (contents : β) (dm : Nat) (d : Dest β) (s0 : σ),
      rel ≠ [] →
      should_always_ignore rel = false →
      oracleIgnores (detectedOracle cfg dryRun destExists) d (format_git_rel rel false)
        = false →
      destLookup d rel = some (DestNode.file contents dm) →
      (apply_generated_file cfg dryRun destExists rel contents d s0).report.skipped_files
        = 1 ∧
      (apply_generated_file cfg dryRun destExists rel contents d s0).report.updated_files
        = 0 ∧
      (apply_generated_file cfg dryRun destExists rel contents d s0).decisions = [] ∧
      (apply_generated_file cfg dryRun destExists rel contents d s0).writes = [] ∧
      (apply_generated_file cfg dryRun destExists rel contents d s0).dest = d ∧
      (apply_generated_file cfg dryRun destExists rel contents d s0).error = none) := by
  constructor
  · intro β σ _ cfg dryRun rel db dm srcMode s hdest
    unfold processFile
    rw [hdest]
    simp
  · intro β σ _ cfg dryRun destExists rel contents dm d s0 hne hai hor hdest
    unfold apply_generated_file
    simp only [if_neg hne, hai, hor, Bool.false_eq_true, if_false, hdest]
    simp [ApplyReport.zero]

/-- Witness for C5 at concrete inputs for both entry points. -/
theorem identical_bytes_skip_without_decision_witness :
    (processFile (σ := Unit) ⟨fun _ _ _ => none, fun _ _ => ((), .overwrite), none⟩
        true ["f"] 7 3 (initState [(["f"], DestNode.file 7 5)] ()) =
      ({ initState (σ := Unit) [(["f"], DestNode.file 7 5)] () with report :=
          { ApplyReport.zero with skipped_files := 1 } }, none)) ∧
    ((apply_generated_file (σ := Unit) ⟨fun _ _ _ => none, fun _ _ => ((), .overwrite), none⟩
        false true ["LICENSE"] 9 [(["LICENSE"], DestNode.file 9 4)] ()).decisions = []) := by
  refine ⟨identical_bytes_skip_without_decision.1 Nat Unit inferInstance _ true ["f"] 7 5 3 _
    (by decide), ?_⟩
  exact (identical_bytes_skip_without_decision.2 Nat Unit inferInstance _ false true
    ["LICENSE"] 9 4 _ () (by decide) (by decide) (by decide) (by decide)).2.2.1

/-- C6: when the decider chooses `Merge` but the merge strategy registry
produced no merge bytes, the per-file step degrades the action to `Skip`:
the file is counted as skipped, nothing is written, and no error is
raised. -/
theorem merge_unavailable_degrades_to_skip [DecidableEq β] (cfg : EngineCfg β σ)
    (dryRun : Bool) (rel : List String) (src : β) (srcMode : Nat) (s : EState β σ)
    (destBytes : β) (destMode : Nat)
    (hdest : destLookup s.dest rel = some (DestNode.file destBytes destMode))
    (hconflict : src ≠ destBytes)
    (hmerge : cfg.mergeFn rel destBytes src = none)
    (hact : (cfg.decider s.decState ⟨rel, src, destBytes, none⟩).2 = .merge) :
    (processFile cfg dryRun rel src srcMode s).2 = none ∧
    (processFile cfg dryRun rel src srcMode s).1.report.skipped_files
      = s.report.skipped_files + 1 ∧
    (processFile cfg dryRun rel src srcMode s).1.report.updated_files
      = s.report.updated_files ∧
    (processFile cfg dryRun rel src srcMode s).1.writes = s.writes ∧
    (processFile cfg dryRun rel src srcMode s).1.dest = s.dest := by
  unfold processFile
  rw [hdest]
  simp only [hmerge]
  rcases hdec : cfg.decider s.decState ⟨rel, src, destBytes, none⟩ with ⟨ds, act⟩
  rw [hdec] at hact
  simp only at hact
  subst hact
  simp only [if_neg hconflict, hdec, resolveAction]
  simp

/-- Witness for C6 at a concrete input. -/
theorem merge_unavailable_degrades_to_skip_witness :
    ((processFile (σ := Unit) ⟨fun _ _ _ => none, fun _ _ => ((), .merge), none⟩
        false ["g"] 2 0 (initState [(["g"], DestNode.file 1 0)] ())).2 = none ∧
      (processFile (σ := Unit) ⟨fun _ _ _ => none, fun _ _ => ((), .merge), none⟩
        false ["g"] 2 0 (initState [(["g"], DestNode.file 1 0)] ())).1.report.skipped_files
        = (initState (σ := Unit) [(["g"], DestNode.file 1 0)] ()).report.skipped_files + 1 ∧
      (processFile (σ := Unit) ⟨fun _ _ _ => none, fun _ _ => ((), .merge), none⟩
        false ["g"] 2 0 (initState [(["g"], DestNode.file 1 0)] ())).1.report.updated_files
        = (initState (σ := Unit) [(["g"], DestNode.file 1 0)] ()).report.updated_files ∧
      (processFile (σ := Unit) ⟨fun _ _ _ => none, fun _ _ => ((), .merge), none⟩
        false ["g"] 2 0 (initState [(["g"], DestNode.file 1 0)] ())).1.writes
        = (initState (σ := Unit) [(["g"], DestNode.file 1 0)] ()).writes ∧
      (processFile (σ := Unit) ⟨fun _ _ _ => none, fun _ _ => ((), .merge), none⟩
        false ["g"] 2 0 (initState [(["g"], DestNode.file 1 0)] ())).1.dest
        = (initState (σ := Unit) [(["g"], DestNode.file 1 0)] ()).dest) :=
  merge_unavailable_degrades_to_skip _ false ["g"] 2 0 _ 1 0 (by decide) (by decide)
    (by decide) (by decide)

/-- C10: `apply_generated_file` with an empty relative path returns an
all-zero report and performs nothing: no read, no write, no ignore-oracle
query, no decider call, destination untouched, no error. -/
theorem empty_rel_path_is_noop (β σ : Type) [DecidableEq β] (cfg : EngineCfg β σ)
    (dryRun destExists : Bool) (contents : β) (d : Dest β) (s0 : σ) :
    apply_generated_file cfg dryRun destExists [] contents d s0 =
      ⟨ApplyReport.zero, d, s0, [], [], [], [], none⟩ := rfl

theorem envDestKeys_eq_none_iff (ls : List String) :
    envDestKeys ls = none ↔ ∃ l ∈ ls, env_key l = none := by
  induction ls with
  | nil => simp [envDestKeys]
  | cons l ls ih =>
    cases h : env_key l with
    | none => simp [envDestKeys, h]
    | some k =>
      cases h2 : envDestKeys ls with
      | none =>
        simp only [envDestKeys, h, h2]
        simp only [h2] at ih
        simp [List.exists_mem_cons_iff, h, ← ih]
      | some ks =>
        simp only [envDestKeys, h, h2]
        simp only [h2] at ih
        simp [List.exists_mem_cons_iff, h, ← ih]

/-- C2 counterexample: with the spec's exact scenario (template `.env`
`"A=template\nB=template\n"`, destination `.env` `"A=dest\n"`, always-merge
decider) the engine writes `"A=dest\n\nB=template\n"` — `merge_env` pushes
one separating blank line before the appended keys — not the claimed
`"A=dest\nB=template\n"`. -/
theorem env_merge_example_bytes_refuted :
    envConflictRun.2 = none ∧
    destLookup envConflictRun.1.dest [".env"]
      = some (DestNode.file "A=dest\n\nB=template\n" 420) ∧
    ("A=dest\n\nB=template\n" : String) ≠ "A=dest\nB=template\n" := by
  refine ⟨by decide, by decide, by decide⟩

/-- C2 amended: the same scenario produces destination bytes
`"A=dest\n\nB=template\n"` — the original `A` value is preserved and the
missing key `B` is appended after one separating blank line — with
`updated_files = 1`. -/
theorem env_merge_example_bytes :
    envConflictRun.2 = none ∧
    envConflictRun.1.report = ⟨0, 1, 0, 0⟩ ∧
    destLookup envConflictRun.1.dest [".env"]
      = some (DestNode.file "A=dest\n\nB=template\n" 420) := by
  refine ⟨by decide, by decide, by decide⟩

/-- C3 counterexample: a destination whose lines are one comment and one
valid key assignment — every line classifiable in the claim's sense —
still makes the `.env` merge unavailable: comment lines are not inert. -/
theorem env_comment_blocks_merge :
    merge_file [".env"] "# comment\nA=dest\n" "A=template\nB=template\n" = none ∧
    (rustLines "# comment\nA=dest\n").all envLineClassifiable = true := by
  refine ⟨by decide, by decide⟩

/-- C3 amended: `merge_env` returns `none` exactly when some destination
line is not a valid key assignment (`env_key` yields `none`), which
includes blank and comment lines — destination comments and blanks are
not inert but disable the merge; template lines that fail to classify are
merely skipped. -/
theorem merge_env_none_iff_dest_line_unkeyed (dest src : String) :
    merge_env dest src = none ↔ ∃ l ∈ rustLines dest, env_key l = none := by
  rw [← envDestKeys_eq_none_iff]
  cases h : envDestKeys (rustLines dest) with
  | none => simp [merge_env, h]
  | some ks =>
    simp only [merge_env, h]
    split <;> simp

theorem processFile_writes_mono [DecidableEq β] (cfg : EngineCfg β σ) (dryRun : Bool)
    (rel : List String) (c : β) (m : Nat) (s : EState β σ) :
    ∃ t, (processFile cfg dryRun rel c m s).1.writes = s.writes ++ t := by
  unfold processFile
  cases h : destLookup s.dest rel with
  | none =>
    simp only [h]
    cases dryRun with
    | true => exact ⟨[], by simp⟩
    | false => exact ⟨_, rfl⟩
  | some node =>
    cases node with
    | dirNode => simp only [h]; exact ⟨[], by simp⟩
    | file db dm =>
      simp only [h]
      by_cases hc : c = db
      · simp only [if_pos hc]
        exact ⟨[], by simp⟩
      · simp only [if_neg hc]
        rcases hd : cfg.decider s.decState ⟨rel, c, db, cfg.mergeFn rel db c⟩ with ⟨ds, act⟩
        simp only [hd]
        cases hr : resolveAction act c (cfg.mergeFn rel db c) with
        | none => simp only [hr]; exact ⟨[], by simp⟩
        | some out =>
          simp only [hr]
          by_cases ho : out = db
          · simp only [if_pos ho]
            exact ⟨[], by simp⟩
          · simp only [if_neg ho]
            cases dryRun with
            | true => exact ⟨[], by simp⟩
            | false => exact ⟨_, rfl⟩

mutual
theorem applyEntry_writes_mono [DecidableEq β] (cfg : EngineCfg β σ)
    (g : Option (Dest β → String → Bool)) (dryRun : Bool) (rel : List String) :
    (e : TEntry β) → (s : EState β σ) →
      ∃ t, (applyEntry cfg g dryRun rel e s).1.writes = s.writes ++ t
  | .file c m, s => processFile_writes_mono cfg dryRun rel c m s
  | .dir l, s =>
    apply_dir_entries_writes_mono cfg g dryRun rel
      (fun q => oracleIgnores g s.dest q) l s
  | .symlink, _s => ⟨[], by simp [applyEntry]⟩
theorem apply_dir_entries_writes_mono [DecidableEq β] (cfg : EngineCfg β σ)
    (g : Option (Dest β → String → Bool)) (dryRun : Bool) (relBase : List String)
    (ign : String → Bool) :
    (l : TList β) → (s : EState β σ) →
      ∃ t, (apply_dir_entries cfg g dryRun relBase ign l s).1.writes = s.writes ++ t
  | .nil, s => ⟨[], by simp [apply_dir_entries]⟩
  | .cons n e rest, s => by
    unfold apply_dir_entries
    split
    · exact ⟨[], by simp⟩
    · dsimp only
      split
      · exact apply_dir_entries_writes_mono cfg g dryRun relBase ign rest _
      · split
        · exact apply_dir_entries_writes_mono cfg g dryRun relBase ign rest _
        · rcases h : applyEntry cfg g dryRun (relBase ++ [n]) e s with ⟨s', err⟩
          obtain ⟨t1, ht1⟩ := applyEntry_writes_mono cfg g dryRun (relBase ++ [n]) e s
          rw [h] at ht1
          cases err with
          | none =>
            simp only
            simp only at ht1
            obtain ⟨t2, ht2⟩ :=
              apply_dir_entries_writes_mono cfg g dryRun relBase ign rest s'
            exact ⟨t1 ++ t2, by simp [ht2, ht1]⟩
          | some e2 => exact ⟨t1, by simpa using ht1⟩
end

theorem apply_dir_recursive_writes_mono [DecidableEq β] (cfg : EngineCfg β σ)
    (g : Option (Dest β → String → Bool)) (dryRun : Bool) (relBase : List String)
    (l : TList β) (s : EState β σ) :
    ∃ t, (apply_dir_recursive cfg g dryRun relBase l s).1.writes = s.writes ++ t :=
  apply_dir_entries_writes_mono cfg g dryRun relBase
    (fun q => oracleIgnores g s.dest q) l s

/-- C8 counterexample: a template directory containing the regular file
`a.txt` and the symlink `b` fails with `SymlinkNotSupported`, but the file
sorted before the symlink has already been written — the write log is not
empty, refuting "zero files are written". -/
theorem symlink_partial_write :
    symlinkAfterFileRun.2 = some (.symlinkNotSupported ["b"]) ∧
    symlinkAfterFileRun.1.writes = [(["a.txt"], "x")] ∧
    symlinkAfterFileRun.1.writes ≠ [] := by
  refine ⟨by decide, by decide, by decide⟩

/-- C8 amended: traversal fails with `SymlinkNotSupported` the moment it
reaches a symlink entry — a symlink at the head of a directory level
aborts immediately with no state change — and on any error the writes
performed earlier in traversal order are retained, never rolled back; so
zero files are written only when no write precedes the symlink. -/
theorem symlink_aborts_and_keeps_prior_writes :
    (∀ (β σ : Type) (_ : DecidableEq β) (cfg : EngineCfg β σ)
      (g : Option (Dest β → String → Bool)) (dryRun : Bool)
      (relBase : List String) (n : String) (rest : TList β) (s : EState β σ),
      apply_dir_recursive cfg g dryRun relBase (.cons n .symlink rest) s
        = (s, some (.symlinkNotSupported (relBase ++ [n])))) ∧
    (∀ (β σ : Type) (_ : DecidableEq β) (cfg : EngineCfg β σ)
      (g : Option (Dest β → String → Bool)) (dryRun : Bool)
      (relBase : List String) (l : TList β) (s : EState β σ),
      ∃ t, (apply_dir_recursive cfg g dryRun relBase l s).1.writes = s.writes ++ t) := by
  constructor
  · intro β σ _ cfg g dryRun relBase n rest s
    unfold apply_dir_recursive apply_dir_entries
    simp [TEntry.isSymlink]
  · intro β σ _ cfg g dryRun relBase l s
    exact apply_dir_recursive_writes_mono cfg g dryRun relBase l s

/-- C9 counterexample: creating a missing file goes through `fs::copy`,
which copies the template's permission bits: a 0o755 template file is
created with mode 0o755, not the default mode — refuting "the newly
created destination file gets the default mode". -/
theorem created_file_copies_template_mode :
    modeCopyRun.2 = none ∧
    destLookup modeCopyRun.1.dest ["tool.sh"]
      = some (DestNode.file "echo hi\n" 0o755) ∧
    (0o755 : Nat) ≠ defaultFileMode := by
  refine ⟨by decide, by decide, by decide⟩

/-- C9 amended: for a template file whose relative path is absent from the
destination, the non-dry-run per-file step copies the bytes verbatim and
counts the file as created, with no decider call and no error; the created
file's permission bits are the template file's (copied by `fs::copy`),
not the default mode. -/
theorem missing_file_created_verbatim [DecidableEq β] (cfg : EngineCfg β σ)
    (rel : List String) (c : β) (m : Nat) (s : EState β σ)
    (hdest : destLookup s.dest rel = none) :
    processFile cfg false rel c m s =
      ({ s with
          report := { s.report with created_files := s.report.created_files + 1 },
          dest := destInsert s.dest rel (DestNode.file c m),
          writes := s.writes ++ [(rel, c)] }, none) ∧
    destLookup (destInsert s.dest rel (DestNode.file c m)) rel
      = some (DestNode.file c m) := by
  refine ⟨?_, destLookup_destInsert_self s.dest rel _⟩
  unfold processFile
  rw [hdest]
  simp

/-- Witness for the amended C9 at a concrete input. -/
theorem missing_file_created_verbatim_witness :
    (processFile (σ := Unit) ⟨fun _ _ _ => none, fun _ _ => ((), .skip), none⟩
        false ["new.txt"] 3 0o755 (initState [] ()) =
      ({ initState (σ := Unit) [] () with
          report := { ApplyReport.zero with created_files := 1 },
          dest := destInsert [] ["new.txt"] (DestNode.file 3 0o755),
          writes := [(["new.txt"], 3)] }, none) ∧
      destLookup (destInsert [] ["new.txt"] (DestNode.file 3 0o755)) ["new.txt"]
        = some (DestNode.file 3 0o755)) := by
  have h := missing_file_created_verbatim (σ := Unit)
    ⟨fun _ _ _ => none, fun _ _ => ((), .skip), none⟩ ["new.txt"] 3 0o755
    (initState [] ()) (by decide)
  simpa [initState, ApplyReport.zero] using h

/-! ### TOML merge lemmas -/

theorem tomlPres_refl (a : TomlItem) : tomlPres a a :=
  fun _p it h => ⟨it, h, fun _ => Eq.refl it⟩

theorem tomlPres_trans {a b c : TomlItem} (h1 : tomlPres a b) (h2 : tomlPres b c) :
    tomlPres a c := by
  intro p it h
  obtain ⟨it1, hl1, he1⟩ := h1 p it h
  by_cases hleaf : tomlIsLeaf it = true
  · obtain ⟨it2, hl2, he2⟩ := h2 p it1 hl1
    exact ⟨it2, hl2, fun _ => by rw [he2 (by rw [he1 hleaf]; exact hleaf), he1 hleaf]⟩
  · obtain ⟨it2, hl2, _⟩ := h2 p it1 hl1
    exact ⟨it2, hl2, fun hc => absurd hc hleaf⟩

theorem tfind?_tappend : (t : TomlTable) → (k : String) → (v : TomlItem) → (k' : String) →
    tfind? (tappend t k v) k' =
      match tfind? t k' with
      | some x => some x
      | none => if k = k' then some v else none
  | .nil, k, v, k' => by simp [tappend, tfind?]
  | .cons k0 v0 rest, k, v, k' => by
    by_cases h : k0 = k'
    · simp [tappend, tfind?, h]
    · simp [tappend, tfind?, h, tfind?_tappend rest k v k']

theorem tfind?_tset_ne : (t : TomlTable) → (k : String) → (v : TomlItem) → (k' : String) →
    k' ≠ k → tfind? (tset t k v) k' = tfind? t k'
  | .nil, k, v, k', _ => by simp [tset, tfind?]
  | .cons k0 v0 rest, k, v, k', h => by
    by_cases h0 : k0 = k
    · subst h0
      have hne : k0 ≠ k' := fun hh => h hh.symm
      simp [tset, tfind?, hne]
    · simp only [tset, if_neg h0]
      by_cases h1 : k0 = k'
      · simp [tfind?, h1]
      · simp [tfind?, h1, tfind?_tset_ne rest k v k' h]

theorem tfind?_tset_eq : (t : TomlTable) → (k : String) → (v : TomlItem) →
    (tfind? t k).isSome → tfind? (tset t k v) k = some v
  | .nil, k, v, h => by simp [tfind?] at h
  | .cons k0 v0 rest, k, v, h => by
    by_cases h0 : k0 = k
    · simp [tset, tfind?, h0]
    · simp only [tfind?, if_neg h0] at h
      simp [tset, tfind?, if_neg h0, tfind?_tset_eq rest k v h]

theorem tappend_pres (t : TomlTable) (k : String) (v : TomlItem) :
    tomlPres (.table t) (.table (tappend t k v)) := by
  intro p it h
  cases p with
  | nil =>
    simp only [tomlLookupPath, Option.some_inj] at h
    exact ⟨.table (tappend t k v), by simp [tomlLookupPath], fun hleaf => by
      rw [← h] at hleaf; simp [tomlIsLeaf] at hleaf⟩
  | cons k' p' =>
    simp only [tomlLookupPath] at h
    cases hf : tfind? t k' with
    | none => rw [hf] at h; simp at h
    | some it1 =>
      rw [hf] at h
      refine ⟨it, ?_, fun _ => Eq.refl it⟩
      simp only [tomlLookupPath, tfind?_tappend, hf]
      exact h

theorem tset_pres (t : TomlTable) (k : String) (it0 b : TomlItem)
    (hf : tfind? t k = some it0) (hp : tomlPres it0 b) :
    tomlPres (.table t) (.table (tset t k b)) := by
  intro p it h
  cases p with
  | nil =>
    simp only [tomlLookupPath, Option.some_inj] at h
    exact ⟨.table (tset t k b), by simp [tomlLookupPath], fun hleaf => by
      rw [← h] at hleaf; simp [tomlIsLeaf] at hleaf⟩
  | cons k' p' =>
    simp only [tomlLookupPath] at h
    by_cases hk : k' = k
    · subst hk
      rw [hf] at h
      obtain ⟨it', hl, he⟩ := hp p' it h
      refine ⟨it', ?_, he⟩
      simp only [tomlLookupPath, tfind?_tset_eq t k' b (by simp [hf])]
      exact hl
    · cases hf' : tfind? t k' with
      | none => rw [hf'] at h; simp at h
      | some it1 =>
        rw [hf'] at h
        refine ⟨it, ?_, fun _ => Eq.refl it⟩
        simp only [tomlLookupPath, tfind?_tset_ne t k b k' hk, hf']
        exact h

mutual
theorem mergeTomlKey_pres : (dest : TomlTable) → (k : String) → (sv : TomlItem) →
    tomlPres (.table dest) (.table (mergeTomlKey dest k sv))
  | dest, k, .table st => by
    unfold mergeTomlKey
    cases hf : tfind? dest k with
    | none => exact tappend_pres dest k (.table st)
    | some it0 =>
      cases it0 with
      | table dt => exact tset_pres dest k _ _ hf (merge_toml_table_pres dt st)
      | value n => exact tomlPres_refl _
      | arrayOfTables n => exact tomlPres_refl _
  | dest, k, .value n => by
    unfold mergeTomlKey
    cases hf : tfind? dest k with
    | none => exact tappend_pres dest k (.value n)
    | some it0 => cases it0 <;> exact tomlPres_refl _
  | dest, k, .arrayOfTables n => by
    unfold mergeTomlKey
    cases hf : tfind? dest k with
    | none => exact tappend_pres dest k (.arrayOfTables n)
    | some it0 => cases it0 <;> exact tomlPres_refl _
theorem merge_toml_table_pres : (dest src : TomlTable) →
    tomlPres (.table dest) (.table (merge_toml_table dest src))
  | _dest, .nil => tomlPres_refl _
  | dest, .cons k sv rest =>
    tomlPres_trans (mergeTomlKey_pres dest k sv)
      (merge_toml_table_pres (mergeTomlKey dest k sv) rest)
end

theorem tcontains_iff_mem : (t : TomlTable) → (k : String) →
    (tcontains t k = true ↔ k ∈ tkeys t)
  | .nil, k => by simp [tcontains, tfind?, tkeys]
  | .cons k0 v0 rest, k => by
    by_cases h : k0 = k
    · simp [tcontains, tfind?, tkeys, h]
    · have h2 := tcontains_iff_mem rest k
      simp only [tcontains] at h2
      simp only [tcontains, tfind?, if_neg h, tkeys, List.mem_cons]
      rw [h2]
      constructor
      · exact fun hm => Or.inr hm
      · rintro (hm | hm)
        · exact absurd hm.symm h
        · exact hm

theorem tkeys_tappend : (t : TomlTable) → (k : String) → (v : TomlItem) →
    tkeys (tappend t k v) = tkeys t ++ [k]
  | .nil, k, v => by simp [tappend, tkeys]
  | .cons k0 v0 rest, k, v => by simp [tappend, tkeys, tkeys_tappend rest k v]

theorem tkeys_tset : (t : TomlTable) → (k : String) → (v : TomlItem) →
    tkeys (tset t k v) = tkeys t
  | .nil, k, v => by simp [tset, tkeys]
  | .cons k0 v0 rest, k, v => by
    by_cases h : k0 = k
    · simp [tset, tkeys, h]
    · simp [tset, tkeys, h, tkeys_tset rest k v]

theorem tkeys_mergeTomlKey_of_contains (dest : TomlTable) (k : String) (sv : TomlItem)
    (h : tcontains dest k = true) :
    tkeys (mergeTomlKey dest k sv) = tkeys dest := by
  unfold mergeTomlKey
  cases hf : tfind? dest k with
  | none => simp [tcontains, hf] at h
  | some it0 =>
    cases it0 with
    | table dt => cases sv <;> simp [tkeys_tset]
    | value n => rfl
    | arrayOfTables n => rfl

theorem tkeys_mergeTomlKey_of_not_contains (dest : TomlTable) (k : String) (sv : TomlItem)
    (h : tcontains dest k = false) :
    tkeys (mergeTomlKey dest k sv) = tkeys dest ++ [k] := by
  unfold mergeTomlKey
  cases hf : tfind? dest k with
  | none => exact tkeys_tappend dest k sv
  | some it0 => simp [tcontains, hf] at h

theorem tcontains_congr_of_tkeys {t t' : TomlTable} (h : tkeys t = tkeys t')
    (k : String) : tcontains t k = tcontains t' k := by
  rw [Bool.eq_iff_iff, tcontains_iff_mem, tcontains_iff_mem, h]

theorem merge_toml_table_tkeys : (src : TomlTable) → ∀ dest : TomlTable,
    tomlTableWf src = true →
    tkeys (merge_toml_table dest src)
      = tkeys dest ++ (tkeys src).filter (fun k => !(tcontains dest k))
  | .nil => by intro dest _; simp [merge_toml_table, tkeys]
  | .cons k sv rest => by
    intro dest hwf
    have ih := merge_toml_table_tkeys rest
    simp only [tomlTableWf, Bool.and_eq_true, Bool.not_eq_true'] at hwf
    obtain ⟨⟨hkr, _⟩, hwfrest⟩ := hwf
    show tkeys (merge_toml_table (mergeTomlKey dest k sv) rest) = _
    rw [ih (mergeTomlKey dest k sv) hwfrest]
    cases hc : tcontains dest k with
    | true =>
      have hkeq := tkeys_mergeTomlKey_of_contains dest k sv hc
      rw [hkeq]
      simp only [tkeys, List.filter_cons]
      rw [show (!(tcontains dest k)) = false by simp [hc]]
      simp only [Bool.false_eq_true, if_false]
      congr 1
      exact List.filter_congr fun x _ => by
        rw [tcontains_congr_of_tkeys hkeq x]
    | false =>
      have hkeq := tkeys_mergeTomlKey_of_not_contains dest k sv hc
      have hfc : ∀ x ∈ tkeys rest,
          (fun x => !(tcontains (mergeTomlKey dest k sv) x)) x
            = (fun x => !(tcontains dest x)) x := by
        intro x hx
        have hxk : x ≠ k := fun hh => by
          subst hh
          exact absurd ((tcontains_iff_mem rest x).mpr hx) (by simp [hkr])
        have hcc : tcontains (mergeTomlKey dest k sv) x = tcontains dest x := by
          rw [Bool.eq_iff_iff, tcontains_iff_mem, tcontains_iff_mem, hkeq]
          simp [List.mem_append, hxk]
        simp only [hcc]
      rw [List.filter_congr hfc, hkeq]
      simp only [tkeys, List.filter_cons]
      rw [show (!(tcontains dest k)) = true by simp [hc]]
      simp

/-! ### YAML merge lemmas -/

theorem yamlPres_refl (a : YamlValue) : yamlPres a a :=
  fun _p it h => ⟨it, h, fun _ => Eq.refl it⟩

theorem yamlPres_trans {a b c : YamlValue} (h1 : yamlPres a b) (h2 : yamlPres b c) :
    yamlPres a c := by
  intro p it h
  obtain ⟨it1, hl1, he1⟩ := h1 p it h
  by_cases hleaf : yamlIsScalar it = true
  · obtain ⟨it2, hl2, he2⟩ := h2 p it1 hl1
    exact ⟨it2, hl2, fun _ => by rw [he2 (by rw [he1 hleaf]; exact hleaf), he1 hleaf]⟩
  · obtain ⟨it2, hl2, _⟩ := h2 p it1 hl1
    exact ⟨it2, hl2, fun hc => absurd hc hleaf⟩

theorem yfind?_yappend : (m : YamlMap) → (k : Nat) → (v : YamlValue) → (k' : Nat) →
    yfind? (yappend m k v) k' =
      match yfind? m k' with
      | some x => some x
      | none => if k = k' then some v else none
  | .nil, k, v, k' => by simp [yappend, yfind?]
  | .cons k0 v0 rest, k, v, k' => by
    by_cases h : k0 = k'
    · simp [yappend, yfind?, h]
    · simp [yappend, yfind?, h, yfind?_yappend rest k v k']

theorem yfind?_yset_ne : (m : YamlMap) → (k : Nat) → (v : YamlValue) → (k' : Nat) →
    k' ≠ k → yfind? (yset m k v) k' = yfind? m k'
  | .nil, k, v, k', _ => by simp [yset, yfind?]
  | .cons k0 v0 rest, k, v, k', h => by
    by_cases h0 : k0 = k
    · subst h0
      have hne : k0 ≠ k' := fun hh => h hh.symm
      simp [yset, yfind?, hne]
    · simp only [yset, if_neg h0]
      by_cases h1 : k0 = k'
      · simp [yfind?, h1]
      · simp [yfind?, h1, yfind?_yset_ne rest k v k' h]

theorem yfind?_yset_eq : (m : YamlMap) → (k : Nat) → (v : YamlValue) →
    (yfind? m k).isSome → yfind? (yset m k v) k = some v
  | .nil, k, v, h => by simp [yfind?] at h
  | .cons k0 v0 rest, k, v, h => by
    by_cases h0 : k0 = k
    · simp [yset, yfind?, h0]
    · simp only [yfind?, if_neg h0] at h
      simp [yset, yfind?, if_neg h0, yfind?_yset_eq rest k v h]

theorem yappend_pres (m : YamlMap) (k : Nat) (v : YamlValue) :
    yamlPres (.mapping m) (.mapping (yappend m k v)) := by
  intro p it h
  cases p with
  | nil =>
    simp only [yamlLookupPath, Option.some_inj] at h
    exact ⟨.mapping (yappend m k v), by simp [yamlLookupPath], fun hleaf => by
      rw [← h] at hleaf; simp [yamlIsScalar] at hleaf⟩
  | cons k' p' =>
    simp only [yamlLookupPath] at h
    cases hf : yfind? m k' with
    | none => rw [hf] at h; simp at h
    | some it1 =>
      rw [hf] at h
      refine ⟨it, ?_, fun _ => Eq.refl it⟩
      simp only [yamlLookupPath, yfind?_yappend, hf]
      exact h

theorem yset_pres (m : YamlMap) (k : Nat) (it0 b : YamlValue)
    (hf : yfind? m k = some it0) (hp : yamlPres it0 b) :
    yamlPres (.mapping m) (.mapping (yset m k b)) := by
  intro p it h
  cases p with
  | nil =>
    simp only [yamlLookupPath, Option.some_inj] at h
    exact ⟨.mapping (yset m k b), by simp [yamlLookupPath], fun hleaf => by
      rw [← h] at hleaf; simp [yamlIsScalar] at hleaf⟩
  | cons k' p' =>
    simp only [yamlLookupPath] at h
    by_cases hk : k' = k
    · subst hk
      rw [hf] at h
      obtain ⟨it', hl, he⟩ := hp p' it h
      refine ⟨it', ?_, he⟩
      simp only [yamlLookupPath, yfind?_yset_eq m k' b (by simp [hf])]
      exact hl
    · cases hf' : yfind? m k' with
      | none => rw [hf'] at h; simp at h
      | some it1 =>
        rw [hf'] at h
        refine ⟨it, ?_, fun _ => Eq.refl it⟩
        simp only [yamlLookupPath, yfind?_yset_ne m k b k' hk, hf']
        exact h

mutual
theorem merge_yaml_value_pres : (a b : YamlValue) → yamlPres a (merge_yaml_value a b)
  | .mapping d, .mapping s => by
    simp only [merge_yaml_value]
    exact merge_yaml_map_pres d s
  | .mapping d, .scalar n => by
    simp only [merge_yaml_value]
    exact yamlPres_refl _
  | .scalar n, b => by
    cases b <;> simp only [merge_yaml_value] <;> exact yamlPres_refl _
theorem merge_yaml_map_pres : (d s : YamlMap) →
    yamlPres (.mapping d) (.mapping (merge_yaml_map d s))
  | d, .nil => by
    simp only [merge_yaml_map]
    exact yamlPres_refl _
  | d, .cons k v rest => by
    simp only [merge_yaml_map]
    exact yamlPres_trans (mergeYamlKey_pres d k v)
      (merge_yaml_map_pres (mergeYamlKey d k v) rest)
theorem mergeYamlKey_pres : (d : YamlMap) → (k : Nat) → (v : YamlValue) →
    yamlPres (.mapping d) (.mapping (mergeYamlKey d k v))
  | d, k, v => by
    unfold mergeYamlKey
    cases hf : yfind? d k with
    | none => exact yappend_pres d k v
    | some dv => exact yset_pres d k dv _ hf (merge_yaml_value_pres dv v)
end

theorem ycontains_iff_mem : (m : YamlMap) → (k : Nat) →
    (ycontains m k = true ↔ k ∈ ykeys m)
  | .nil, k => by simp [ycontains, yfind?, ykeys]
  | .cons k0 v0 rest, k => by
    by_cases h : k0 = k
    · simp [ycontains, yfind?, ykeys, h]
    · have h2 := ycontains_iff_mem rest k
      simp only [ycontains] at h2
      simp only [ycontains, yfind?, if_neg h, ykeys, List.mem_cons]
      rw [h2]
      constructor
      · exact fun hm => Or.inr hm
      · rintro (hm | hm)
        · exact absurd hm.symm h
        · exact hm

theorem ykeys_yappend : (m : YamlMap) → (k : Nat) → (v : YamlValue) →
    ykeys (yappend m k v) = ykeys m ++ [k]
  | .nil, k, v => by simp [yappend, ykeys]
  | .cons k0 v0 rest, k, v => by simp [yappend, ykeys, ykeys_yappend rest k v]

theorem ykeys_yset : (m : YamlMap) → (k : Nat) → (v : YamlValue) →
    ykeys (yset m k v) = ykeys m
  | .nil, k, v => by simp [yset, ykeys]
  | .cons k0 v0 rest, k, v => by
    by_cases h : k0 = k
    · simp [yset, ykeys, h]
    · simp [yset, ykeys, h, ykeys_yset rest k v]

theorem ykeys_mergeYamlKey_of_contains (d : YamlMap) (k : Nat) (v : YamlValue)
    (h : ycontains d k = true) :
    ykeys (mergeYamlKey d k v) = ykeys d := by
  unfold mergeYamlKey
  cases hf : yfind? d k with
  | none => simp [ycontains, hf] at h
  | some dv => simp [ykeys_yset]

theorem ykeys_mergeYamlKey_of_not_contains (d : YamlMap) (k : Nat) (v : YamlValue)
    (h : ycontains d k = false) :
    ykeys (mergeYamlKey d k v) = ykeys d ++ [k] := by
  unfold mergeYamlKey
  cases hf : yfind? d k with
  | none => exact ykeys_yappend d k v
  | some dv => simp [ycontains, hf] at h

theorem merge_yaml_map_ykeys : (s : YamlMap) → ∀ d : YamlMap,
    yamlMapWf s = true →
    ykeys (merge_yaml_map d s)
      = ykeys d ++ (ykeys s).filter (fun k => !(ycontains d k))
  | .nil => by intro d _; simp [merge_yaml_map, ykeys]
  | .cons k v rest => by
    intro d hwf
    have ih := merge_yaml_map_ykeys rest
    simp only [yamlMapWf, Bool.and_eq_true, Bool.not_eq_true'] at hwf
    obtain ⟨⟨hkr, _⟩, hwfrest⟩ := hwf
    simp only [merge_yaml_map]
    rw [ih (mergeYamlKey d k v) hwfrest]
    cases hc : ycontains d k with
    | true =>
      have hkeq := ykeys_mergeYamlKey_of_contains d k v hc
      rw [hkeq]
      simp only [ykeys, List.filter_cons]
      rw [show (!(ycontains d k)) = false by simp [hc]]
      simp only [Bool.false_eq_true, if_false]
      congr 1
      refine List.filter_congr fun x hx => ?_
      have hcc : ycontains (mergeYamlKey d k v) x = ycontains d x := by
        rw [Bool.eq_iff_iff, ycontains_iff_mem, ycontains_iff_mem, hkeq]
      simp only [hcc]
    | false =>
      have hkeq := ykeys_mergeYamlKey_of_not_contains d k v hc
      have hfc : ∀ x ∈ ykeys rest,
          (fun x => !(ycontains (mergeYamlKey d k v) x)) x
            = (fun x => !(ycontains d x)) x := by
        intro x hx
        have hxk : x ≠ k := fun hh => by
          subst hh
          exact absurd ((ycontains_iff_mem rest x).mpr hx) (by simp [hkr])
        have hcc : ycontains (mergeYamlKey d k v) x = ycontains d x := by
          rw [Bool.eq_iff_iff, ycontains_iff_mem, ycontains_iff_mem, hkeq]
          simp [List.mem_append, hxk]
        simp only [hcc]
      rw [List.filter_congr hfc, hkeq]
      simp only [ykeys, List.filter_cons]
      rw [show (!(ycontains d k)) = true by simp [hc]]
      simp

/-- C4: additivity of the structured merges.  For TOML and YAML, every
key path readable in the destination before the merge is still readable
afterward, and non-table/non-mapping items (scalars, arrays) are
recovered with their original value — collisions keep the destination
value and discard the template's.  At each table/mapping level the merged
key list is the destination's keys followed by exactly the template keys
absent from the destination (for well-formed, duplicate-free template
documents), so only keys absent from the destination are introduced. -/
theorem structured_merge_additivity :
    (∀ (dest src : TomlTable) (p : List String) (it : TomlItem),
        tomlLookupPath (.table dest) p = some it →
        ∃ it', tomlLookupPath (.table (merge_toml_table dest src)) p = some it' ∧
          (tomlIsLeaf it = true → it' = it)) ∧
    (∀ dest src : TomlTable, tomlTableWf src = true →
        tkeys (merge_toml_table dest src)
          = tkeys dest ++ (tkeys src).filter (fun k => !(tcontains dest k))) ∧
    (∀ (d s : YamlMap) (p : List Nat) (it : YamlValue),
        yamlLookupPath (.mapping d) p = some it →
        ∃ it', yamlLookupPath (.mapping (merge_yaml_map d s)) p = some it' ∧
          (yamlIsScalar it = true → it' = it)) ∧
    (∀ d s : YamlMap, yamlMapWf s = true →
        ykeys (merge_yaml_map d s)
          = ykeys d ++ (ykeys s).filter (fun k => !(ycontains d k))) :=
  ⟨fun dest src => merge_toml_table_pres dest src,
   fun dest src h => merge_toml_table_tkeys src dest h,
   fun d s => merge_yaml_map_pres d s,
   fun d s h => merge_yaml_map_ykeys s d h⟩

/-- Witness for C4: the spec's scenario 3 — destination
`[a] x = 1`, template `[a] x = 9, z = 3` plus `[c] k = 1` — and the
corresponding YAML shape, with hypotheses discharged by evaluation. -/
theorem structured_merge_additivity_witness :
    ((∃ it', tomlLookupPath
        (.table (merge_toml_table
          (.cons "a" (.table (.cons "x" (.value 1) .nil)) .nil)
          (.cons "a" (.table (.cons "x" (.value 9) (.cons "z" (.value 3) .nil)))
            (.cons "c" (.value 7) .nil))))
        ["a", "x"] = some it' ∧
        (tomlIsLeaf (.value 1) = true → it' = .value 1)) ∧
      tkeys (merge_toml_table
          (.cons "a" (.table (.cons "x" (.value 1) .nil)) .nil)
          (.cons "a" (.table (.cons "x" (.value 9) (.cons "z" (.value 3) .nil)))
            (.cons "c" (.value 7) .nil)))
        = ["a"] ++ ["c"] ∧
      (∃ it', yamlLookupPath
        (.mapping (merge_yaml_map
          (.cons 0 (.mapping (.cons 1 (.scalar 10) .nil)) .nil)
          (.cons 0 (.mapping (.cons 1 (.scalar 20) (.cons 2 (.scalar 30) .nil)))
            (.cons 3 (.scalar 40) .nil))))
        [0, 1] = some it' ∧
        (yamlIsScalar (.scalar 10) = true → it' = .scalar 10)) ∧
      ykeys (merge_yaml_map
          (.cons 0 (.mapping (.cons 1 (.scalar 10) .nil)) .nil)
          (.cons 0 (.mapping (.cons 1 (.scalar 20) (.cons 2 (.scalar 30) .nil)))
            (.cons 3 (.scalar 40) .nil)))
        = [0] ++ [3]) := by
  refine ⟨structured_merge_additivity.1 _ _ ["a", "x"] (.value 1) (by decide), ?_, ?_, ?_⟩
  · rw [structured_merge_additivity.2.1 _ _ (by decide)]
    decide
  · exact structured_merge_additivity.2.2.1 _ _ [0, 1] (.scalar 10) (by decide)
  · rw [structured_merge_additivity.2.2.2 _ _ (by decide)]
    decide

/-! ### Dry-run purity lemmas (claim C7) -/

theorem pathUnder_self (a : List String) : pathUnder a a := ⟨[], by simp⟩

theorem pathUnder_of_append (a b p : List String) (h : pathUnder (a ++ b) p) :
    pathUnder a p := by
  obtain ⟨r, hr⟩ := h
  exact ⟨b ++ r, by simp [hr]⟩

theorem not_pathUnder_ne {rel p : List String} (h : ¬ pathUnder rel p) : p ≠ rel :=
  fun hh => h (hh ▸ pathUnder_self rel)

theorem pathUnder_sibling_disjoint {base : List String} {n n' : String}
    {p : List String} (hne : n' ≠ n) (h : pathUnder (base ++ [n']) p) :
    ¬ pathUnder (base ++ [n]) p := by
  obtain ⟨r1, hr1⟩ := h
  rintro ⟨r2, hr2⟩
  rw [hr1, List.append_assoc, List.append_assoc] at hr2
  have h2 := List.append_cancel_left hr2
  simp only [List.singleton_append, List.cons.injEq] at h2
  exact hne h2.1

theorem processFile_dry [DecidableEq β] (cfg : EngineCfg β σ) (rel : List String)
    (c : β) (m : Nat) (s : EState β σ) :
    (processFile cfg true rel c m s).1.dest = s.dest ∧
    (processFile cfg true rel c m s).1.writes = s.writes := by
  unfold processFile
  cases h : destLookup s.dest rel with
  | none => simp
  | some node =>
    cases node with
    | dirNode => exact ⟨rfl, rfl⟩
    | file db dm =>
      by_cases hc : c = db
      · simp [hc]
      · simp only [if_neg hc]
        rcases hd : cfg.decider s.decState ⟨rel, c, db, cfg.mergeFn rel db c⟩ with ⟨ds, act⟩
        simp only [hd]
        cases hr : resolveAction act c (cfg.mergeFn rel db c) with
        | none => simp
        | some out =>
          simp only [hr]
          by_cases ho : out = db
          · simp [ho]
          · simp [if_neg ho]

theorem processFile_local [DecidableEq β] (cfg : EngineCfg β σ) (dryRun : Bool)
    (rel : List String) (c : β) (m : Nat) (s : EState β σ) (p : List String)
    (hp : p ≠ rel) :
    destLookup (processFile cfg dryRun rel c m s).1.dest p = destLookup s.dest p := by
  unfold processFile
  cases h : destLookup s.dest rel with
  | none =>
    cases dryRun with
    | true => simp
    | false => simp [destLookup_destInsert_ne s.dest rel p _ hp]
  | some node =>
    cases node with
    | dirNode => rfl
    | file db dm =>
      by_cases hc : c = db
      · simp [hc]
      · simp only [if_neg hc]
        rcases hd : cfg.decider s.decState ⟨rel, c, db, cfg.mergeFn rel db c⟩ with ⟨ds, act⟩
        simp only [hd]
        cases hr : resolveAction act c (cfg.mergeFn rel db c) with
        | none => simp
        | some out =>
          simp only [hr]
          by_cases ho : out = db
          · simp [ho]
          · simp only [if_neg ho]
            cases dryRun with
            | true => simp
            | false => simp [destLookup_destInsert_ne s.dest rel p _ hp]

theorem processFile_parallel [DecidableEq β] (cfg : EngineCfg β σ)
    (rel : List String) (c : β) (m : Nat) (s₁ s₂ : EState β σ)
    (hds : s₁.decState = s₂.decState) (hrep : s₁.report = s₂.report)
    (hdec : s₁.decisions = s₂.decisions)
    (hagree : destLookup s₁.dest rel = destLookup s₂.dest rel) :
    (processFile cfg false rel c m s₁).2 = (processFile cfg true rel c m s₂).2 ∧
    (processFile cfg false rel c m s₁).1.decState
      = (processFile cfg true rel c m s₂).1.decState ∧
    (processFile cfg false rel c m s₁).1.report
      = (processFile cfg true rel c m s₂).1.report ∧
    (processFile cfg false rel c m s₁).1.decisions
      = (processFile cfg true rel c m s₂).1.decisions := by
  unfold processFile
  rw [hagree]
  cases h : destLookup s₂.dest rel with
  | none => simp [hrep, hds, hdec]
  | some node =>
    cases node with
    | dirNode => exact ⟨rfl, hds, hrep, hdec⟩
    | file db dm =>
      by_cases hc : c = db
      · simp [hc, hrep, hds, hdec]
      · simp only [if_neg hc]
        rw [hds]
        rcases hd : cfg.decider s₂.decState ⟨rel, c, db, cfg.mergeFn rel db c⟩ with ⟨ds, act⟩
        simp only [hd]
        cases hr : resolveAction act c (cfg.mergeFn rel db c) with
        | none => simp [hrep, hdec]
        | some out =>
          simp only [hr]
          by_cases ho : out = db
          · simp [ho, hrep, hdec]
          · simp [if_neg ho, hrep, hdec]

mutual
theorem applyEntry_dry [DecidableEq β] (cfg : EngineCfg β σ)
    (g : Option (Dest β → String → Bool)) (rel : List String) :
    (e : TEntry β) → (s : EState β σ) →
      (applyEntry cfg g true rel e s).1.dest = s.dest ∧
      (applyEntry cfg g true rel e s).1.writes = s.writes
  | .file c m, s => processFile_dry cfg rel c m s
  | .dir l, s =>
    apply_dir_entries_dry cfg g rel (fun q => oracleIgnores g s.dest q) l s
  | .symlink, _s => ⟨rfl, rfl⟩
theorem apply_dir_entries_dry [DecidableEq β] (cfg : EngineCfg β σ)
    (g : Option (Dest β → String → Bool)) (relBase : List String)
    (ign : String → Bool) :
    (l : TList β) → (s : EState β σ) →
      (apply_dir_entries cfg g true relBase ign l s).1.dest = s.dest ∧
      (apply_dir_entries cfg g true relBase ign l s).1.writes = s.writes
  | .nil, s => ⟨rfl, rfl⟩
  | .cons n e rest, s => by
    unfold apply_dir_entries
    split
    · exact ⟨rfl, rfl⟩
    · dsimp only
      split
      · exact apply_dir_entries_dry cfg g relBase ign rest _
      · split
        · exact apply_dir_entries_dry cfg g relBase ign rest _
        · rcases h : applyEntry cfg g true (relBase ++ [n]) e s with ⟨s', err⟩
          obtain ⟨hd1, hw1⟩ := applyEntry_dry cfg g (relBase ++ [n]) e s
          rw [h] at hd1 hw1
          simp only at hd1 hw1
          cases err with
          | none =>
            simp only
            obtain ⟨hd2, hw2⟩ := apply_dir_entries_dry cfg g relBase ign rest s'
            exact ⟨by rw [hd2, hd1], by rw [hw2, hw1]⟩
          | some e2 => exact ⟨hd1, hw1⟩
end

mutual
theorem applyEntry_local [DecidableEq β] (cfg : EngineCfg β σ)
    (g : Option (Dest β → String → Bool)) (dryRun : Bool) (rel : List String) :
    (e : TEntry β) → (s : EState β σ) → (p : List String) → ¬ pathUnder rel p →
      destLookup (applyEntry cfg g dryRun rel e s).1.dest p = destLookup s.dest p
  | .file c m, s, p, hp => processFile_local cfg dryRun rel c m s p (not_pathUnder_ne hp)
  | .dir l, s, p, hp =>
    apply_dir_entries_local cfg g dryRun rel (fun q => oracleIgnores g s.dest q) l s p hp
  | .symlink, _s, _p, _hp => rfl
theorem apply_dir_entries_local [DecidableEq β] (cfg : EngineCfg β σ)
    (g : Option (Dest β → String → Bool)) (dryRun : Bool) (relBase : List String)
    (ign : String → Bool) :
    (l : TList β) → (s : EState β σ) → (p : List String) → ¬ pathUnder relBase p →
      destLookup (apply_dir_entries cfg g dryRun relBase ign l s).1.dest p
        = destLookup s.dest p
  | .nil, _s, _p, _hp => rfl
  | .cons n e rest, s, p, hp => by
    unfold apply_dir_entries
    split
    · rfl
    · dsimp only
      split
      · exact apply_dir_entries_local cfg g dryRun relBase ign rest _ p hp
      · split
        · exact apply_dir_entries_local cfg g dryRun relBase ign rest _ p hp
        · rcases h : applyEntry cfg g dryRun (relBase ++ [n]) e s with ⟨s', err⟩
          have hloc := applyEntry_local cfg g dryRun (relBase ++ [n]) e s p
            (fun hu => hp (pathUnder_of_append relBase [n] p hu))
          rw [h] at hloc
          simp only at hloc
          cases err with
          | none =>
            simp only
            rw [apply_dir_entries_local cfg g dryRun relBase ign rest s' p hp, hloc]
          | some e2 => exact hloc
end

mutual
theorem applyEntry_parallel [DecidableEq β] (cfg : EngineCfg β σ)
    (g : Option (Dest β → String → Bool))
    (hstable : ∀ (d₁ d₂ : Dest β) (q : String),
      oracleIgnores g d₁ q = oracleIgnores g d₂ q) :
    (e : TEntry β) → (rel : List String) → (s₁ s₂ : EState β σ) →
    e.wf = true →
    s₁.decState = s₂.decState → s₁.report = s₂.report → s₁.decisions = s₂.decisions →
    (∀ p, pathUnder rel p → destLookup s₁.dest p = destLookup s₂.dest p) →
    ((applyEntry cfg g false rel e s₁).2 = (applyEntry cfg g true rel e s₂).2 ∧
      (applyEntry cfg g false rel e s₁).1.decState
        = (applyEntry cfg g true rel e s₂).1.decState ∧
      (applyEntry cfg g false rel e s₁).1.report
        = (applyEntry cfg g true rel e s₂).1.report ∧
      (applyEntry cfg g false rel e s₁).1.decisions
        = (applyEntry cfg g true rel e s₂).1.decisions)
  | .file c m, rel, s₁, s₂, _, hds, hrep, hdec, hagree =>
    processFile_parallel cfg rel c m s₁ s₂ hds hrep hdec (hagree rel (pathUnder_self rel))
  | .dir l, rel, s₁, s₂, hwf, hds, hrep, hdec, hagree =>
    apply_dir_entries_parallel cfg g hstable
      (fun q => oracleIgnores g s₁.dest q) (fun q => oracleIgnores g s₂.dest q)
      (fun q => hstable s₁.dest s₂.dest q)
      l rel s₁ s₂ hwf hds hrep hdec
      (fun p n _ hu => hagree p (pathUnder_of_append rel [n] p hu))
  | .symlink, _rel, _s₁, _s₂, _, hds, hrep, hdec, _ => ⟨rfl, hds, hrep, hdec⟩
theorem apply_dir_entries_parallel [DecidableEq β] (cfg : EngineCfg β σ)
    (g : Option (Dest β → String → Bool))
    (hstable : ∀ (d₁ d₂ : Dest β) (q : String),
      oracleIgnores g d₁ q = oracleIgnores g d₂ q)
    (ign₁ ign₂ : String → Bool) (hig : ∀ q, ign₁ q = ign₂ q) :
    (l : TList β) → (relBase : List String) → (s₁ s₂ : EState β σ) →
    TList.wf l = true →
    s₁.decState = s₂.decState → s₁.report = s₂.report → s₁.decisions = s₂.decisions →
    (∀ p n, n ∈ TList.names l → pathUnder (relBase ++ [n]) p →
      destLookup s₁.dest p = destLookup s₂.dest p) →
    ((apply_dir_entries cfg g false relBase ign₁ l s₁).2
        = (apply_dir_entries cfg g true relBase ign₂ l s₂).2 ∧
      (apply_dir_entries cfg g false relBase ign₁ l s₁).1.decState
        = (apply_dir_entries cfg g true relBase ign₂ l s₂).1.decState ∧
      (apply_dir_entries cfg g false relBase ign₁ l s₁).1.report
        = (apply_dir_entries cfg g true relBase ign₂ l s₂).1.report ∧
      (apply_dir_entries cfg g false relBase ign₁ l s₁).1.decisions
        = (apply_dir_entries cfg g true relBase ign₂ l s₂).1.decisions)
  | .nil, _relBase, _s₁, _s₂, _, hds, hrep, hdec, _ => ⟨rfl, hds, hrep, hdec⟩
  | .cons n e rest, relBase, s₁, s₂, hwf, hds, hrep, hdec, hagree => by
    have hwf' := hwf
    simp only [TList.wf, Bool.and_eq_true, Bool.not_eq_true'] at hwf'
    obtain ⟨⟨hnotin, hwfe⟩, hwfrest⟩ := hwf'
    unfold apply_dir_entries
    split
    · exact ⟨rfl, hds, hrep, hdec⟩
    · dsimp only
      split
      · exact apply_dir_entries_parallel cfg g hstable ign₁ ign₂ hig rest relBase _ _
          hwfrest hds (by rw [hrep]) hdec
          (fun p n' hn' hu => hagree p n' (List.mem_cons_of_mem _ hn') hu)
      · rw [hig (format_git_rel (relBase ++ [n]) e.isDir)]
        split
        · exact apply_dir_entries_parallel cfg g hstable ign₁ ign₂ hig rest relBase _ _
            hwfrest hds (by rw [hrep]) hdec
            (fun p n' hn' hu => hagree p n' (List.mem_cons_of_mem _ hn') hu)
        · have hmain := applyEntry_parallel cfg g hstable e (relBase ++ [n]) s₁ s₂
            hwfe hds hrep hdec (fun p hu => hagree p n (List.mem_cons_self _ _) hu)
          have hdry := applyEntry_dry cfg g (relBase ++ [n]) e s₂
          rcases h₁ : applyEntry cfg g false (relBase ++ [n]) e s₁ with ⟨t₁, err₁⟩
          rcases h₂ : applyEntry cfg g true (relBase ++ [n]) e s₂ with ⟨t₂, err₂⟩
          rw [h₁, h₂] at hmain
          rw [h₂] at hdry
          obtain ⟨herr, hds', hrep', hdec'⟩ := hmain
          simp only at herr hds' hrep' hdec' hdry
          subst herr
          cases err₁ with
          | some e2 => exact ⟨rfl, hds', hrep', hdec'⟩
          | none =>
            simp only
            refine apply_dir_entries_parallel cfg g hstable ign₁ ign₂ hig rest relBase
              t₁ t₂ hwfrest hds' hrep' hdec' ?_
            intro p n' hn' hu
            have hn'ne : n' ≠ n := by
              intro hh
              subst hh
              exact (by simpa using hnotin : n' ∉ rest.names) hn'
            have hl1 := applyEntry_local cfg g false (relBase ++ [n]) e s₁ p
              (pathUnder_sibling_disjoint hn'ne hu)
            rw [h₁] at hl1
            simp only at hl1
            rw [hl1, hagree p n' (List.mem_cons_of_mem _ hn') hu, ← hdry.1]
end

/-- C7 counterexample: dry-run and non-dry-run counts can differ on the
same initial state.  First divergence (live oracle): the template carries
its own `.gitignore` and a subdirectory whose file that ignore rule
matches; the non-dry run writes `.gitignore` at the root level, so the
`sub` level's ignore batch — run against the destination's live contents
— reports `sub/b.txt` ignored (`created = 1, ignored = 1`), while the dry
run never writes it and creates both files (`created = 2, ignored = 0`).
Second divergence (missing destination): with a missing destination
directory, the non-dry run creates it, `GitIgnore::detect` then finds it
and its oracle ignores `a.txt` (`ignored = 1`), while the dry run skips
the creation, detects no oracle, and counts `a.txt` created. -/
theorem dry_run_counts_can_differ :
    liveOracleRunReal.2 = none ∧
    liveOracleRunDry.2 = none ∧
    liveOracleRunReal.1.report = ⟨1, 0, 0, 1⟩ ∧
    liveOracleRunDry.1.report = ⟨2, 0, 0, 0⟩ ∧
    liveOracleRunReal.1.report ≠ liveOracleRunDry.1.report ∧
    missingDestRunReal.1.report = ⟨0, 0, 0, 1⟩ ∧
    missingDestRunDry.1.report = ⟨1, 0, 0, 0⟩ ∧
    missingDestRunReal.1.report ≠ missingDestRunDry.1.report := by
  exact ⟨by decide, by decide, by decide, by decide, by decide, by decide, by decide,
    by decide⟩

/-- C7 amended: the dry run itself creates, modifies, or removes nothing
on disk — its destination and write log are untouched, whatever the
destination's prior existence — and its error outcome and report coincide
with the non-dry-run invocation from the same initial state provided the
destination directory already exists (so both runs detect the same
oracle) and the ignore oracle's per-query answers do not depend on the
destination's current contents (no file written by the run itself changes
later ignore batches); the template tree is well-formed (no duplicate
names per directory level, as real directories guarantee). -/
theorem dry_run_purity [DecidableEq β] (cfg : EngineCfg β σ) (root : TEntry β)
    (d : Dest β) (s0 : σ) (hwf : (sortTEntry root).wf = true)
    (hstable : ∀ (d₁ d₂ : Dest β) (q : String),
      oracleIgnores cfg.oracle d₁ q = oracleIgnores cfg.oracle d₂ q) :
    (apply_template_dir cfg false root true d s0).2
      = (apply_template_dir cfg true root true d s0).2 ∧
    (apply_template_dir cfg false root true d s0).1.report
      = (apply_template_dir cfg true root true d s0).1.report ∧
    (∀ destExists : Bool,
      (apply_template_dir cfg true root destExists d s0).1.dest = d ∧
      (apply_template_dir cfg true root destExists d s0).1.writes = []) := by
  cases root with
  | symlink => exact ⟨rfl, rfl, fun _ => ⟨rfl, rfl⟩⟩
  | file c m => exact ⟨rfl, rfl, fun _ => ⟨rfl, rfl⟩⟩
  | dir l =>
    have hwf' : TList.wf (sortTList l) = true := by
      simpa [sortTEntry, TEntry.wf] using hwf
    have hpar := apply_dir_entries_parallel cfg cfg.oracle hstable
      (fun q => oracleIgnores cfg.oracle d q) (fun q => oracleIgnores cfg.oracle d q)
      (fun _ => rfl) (sortTList l) [] (initState d s0) (initState d s0) hwf'
      rfl rfl rfl (fun _ _ _ _ => rfl)
    refine ⟨hpar.1, hpar.2.2.1, fun dex => ?_⟩
    exact apply_dir_entries_dry cfg (detectedOracle cfg true dex) []
      (fun q => oracleIgnores (detectedOracle cfg true dex) d q)
      (sortTList l) (initState d s0)

/-- Witness for the amended C7 at a concrete input: one directory holding
`hello.txt` over an existing empty destination, always-overwrite decider
with no oracle (whose answers are trivially content-independent). -/
theorem dry_run_purity_witness :
    (apply_template_dir alwaysOverwriteCfg false
        (.dir (.cons "hello.txt" (.file "hello\n" 420) .nil)) true [] ()).2
      = (apply_template_dir alwaysOverwriteCfg true
        (.dir (.cons "hello.txt" (.file "hello\n" 420) .nil)) true [] ()).2 ∧
    (apply_template_dir alwaysOverwriteCfg false
        (.dir (.cons "hello.txt" (.file "hello\n" 420) .nil)) true [] ()).1.report
      = (apply_template_dir alwaysOverwriteCfg true
        (.dir (.cons "hello.txt" (.file "hello\n" 420) .nil)) true [] ()).1.report ∧
    (apply_template_dir alwaysOverwriteCfg true
        (.dir (.cons "hello.txt" (.file "hello\n" 420) .nil)) true [] ()).1.dest = [] ∧
    (apply_template_dir alwaysOverwriteCfg true
        (.dir (.cons "hello.txt" (.file "hello\n" 420) .nil)) true [] ()).1.writes = [] := by
  have h := dry_run_purity alwaysOverwriteCfg
    (.dir (.cons "hello.txt" (.file "hello\n" 420) .nil)) [] () (by decide)
    (fun _ _ _ => rfl)
  exact ⟨h.1, h.2.1, (h.2.2 true).1, (h.2.2 true).2⟩

end Pinit
